import Mathlib

/-!
Verification of the graph/tree/range-query algorithm toolkit of the
daily-practice repository (the algorithm tutorials under
`tutorials/2026/02/`).  Each Python function is shallowly embedded as an
executable Lean definition translated from the source file named in its
doc comment; theorems at the end of the file settle the specified
properties against these embeddings.
-/

namespace MergeSortV1

/-- Function `merge` of `tutorials/2026/02/python_10_feb_246.py`.  The Python
version walks two sorted lists with indices `left_index`/`right_index`,
taking the smaller head (the left one on ties, `left[left_index] <=
right[right_index]`), then appends the remaining elements of whichever list
is left over.  The index loop is rendered as recursion on the two remaining
suffixes. -/
def merge {α : Type} [LinearOrder α] : List α → List α → List α
  | [], right => right
  | left, [] => left
  | a :: left, b :: right =>
    if a ≤ b then a :: merge left (b :: right)
    else b :: merge (a :: left) right
termination_by l r => l.length + r.length

/-- Function `merge_sort` of `tutorials/2026/02/python_10_feb_246.py`:
lists of length at most 1 are returned as-is, otherwise the list is split
at `mid = len(arr) // 2` and the recursively sorted halves are merged. -/
def merge_sort {α : Type} [LinearOrder α] (arr : List α) : List α :=
  if arr.length ≤ 1 then arr
  else
    merge (merge_sort (arr.take (arr.length / 2)))
          (merge_sort (arr.drop (arr.length / 2)))
termination_by arr.length
decreasing_by
  · simp only [List.length_take]
    omega
  · simp only [List.length_drop]
    omega

end MergeSortV1

namespace MergeSortV2

/-- Function `merge` of `tutorials/2026/02/python_18_feb_547.py` (the code
block of that tutorial file).  The Python version pops the smaller head
(`left.pop(0)` on ties) while both lists are non-empty, then extends the
result with the remaining elements of `left` followed by the remaining
elements of `right`.  The pop loop is rendered as recursion on the two
remaining lists. -/
def merge {α : Type} [LinearOrder α] : List α → List α → List α
  | [], right => [] ++ right
  | left, [] => left ++ []
  | a :: left, b :: right =>
    if a ≤ b then a :: merge left (b :: right)
    else b :: merge (a :: left) right
termination_by l r => l.length + r.length

/-- Function `merge_sort` of `tutorials/2026/02/python_18_feb_547.py`:
identical splitting to the 10 Feb version (`mid = len(arr) // 2`), but it
merges with the pop-based `merge` above. -/
def merge_sort {α : Type} [LinearOrder α] (arr : List α) : List α :=
  if arr.length ≤ 1 then arr
  else
    merge (merge_sort (arr.take (arr.length / 2)))
          (merge_sort (arr.drop (arr.length / 2)))
termination_by arr.length
decreasing_by
  · simp only [List.length_take]
    omega
  · simp only [List.length_drop]
    omega

end MergeSortV2

namespace MonotonicStack

/-- Method `push` of class `MonotonicStack` in
`tutorials/2026/02/python_13_feb_501.py` (the fenced code block of that
tutorial file).  `self.stack` is a Python list with the bottom of the stack
at index 0 and the top at the end.  The loop
`while self.stack and val < self.stack[-1]: self.stack.pop()` removes the
top elements that are strictly greater than `val`; on the reversed list
that is exactly `dropWhile`.  The final `append` places `val` on top. -/
def push (stack : List Int) (val : Int) : List Int :=
  (List.dropWhile (fun t => val < t) stack.reverse).reverse ++ [val]

/-- Method `pop` of the same class: removes and returns the top (last)
element, raising IndexError on an empty stack. -/
def pop (stack : List Int) : Except String (List Int × Int) :=
  match stack.reverse with
  | [] => Except.error "IndexError: Cannot pop from an empty stack"
  | t :: rest => Except.ok (rest.reverse, t)

/-- Method `is_empty` of the same class. -/
def is_empty (stack : List Int) : Bool := stack.length == 0

end MonotonicStack

namespace SegTreeMax

/-- Method `build_tree` of class `SegmentTree` in
`tutorials/2026/02/python_12_feb_910.py`.  The Python method mutates
`self.tree` in place; the tree list is threaded explicitly.  `fuel` models
the Python call stack: the constructor only reaches this method with
`start ≤ stop`, for which the recursion depth is below the fuel supplied by
`mk`.  List accesses use `getD`/`set`; every access performed by the
constructor-reachable calls is in range. -/
def build_tree (arr : List Int) : Nat → Nat → Nat → Nat → List Int → List Int
  | 0, _, _, _, tree => tree
  | fuel + 1, start, stop, index, tree =>
    if start = stop then
      tree.set index (arr.getD start 0)
    else
      let mid := (start + stop) / 2
      let tree1 := build_tree arr fuel start mid (2 * index + 1) tree
      let tree2 := build_tree arr fuel (mid + 1) stop (2 * index + 2) tree1
      tree2.set index (max (tree2.getD (2 * index + 1) 0) (tree2.getD (2 * index + 2) 0))

/-- Constructor `SegmentTree.__init__` of python_12_feb_910.py: allocates
`[0] * (4 * n)` and builds over the segment `[0, n - 1]` at root index 0. -/
def mk (arr : List Int) : List Int :=
  build_tree arr (arr.length + 1) 0 (arr.length - 1) 0 (List.replicate (4 * arr.length) 0)

/-- Python `max` against `float(-inf)`: `none` stands for the float
negative infinity returned by an empty overlap. -/
def pymax : Option Int → Option Int → Option Int
  | none, b => b
  | some a, none => some a
  | some a, some b => some (max a b)

/-- Method `query_helper` of python_12_feb_910.py, on the segment tree list
`tree`.  `none` is the `float(-inf)` of the zero-overlap base case.  `fuel`
models the call stack and is never exhausted for the calls made by
`query`. -/
def query_helper (tree : List Int) : Nat → Nat → Nat → Nat → Nat → Nat → Option Int
  | 0, _, _, _, _, _ => none
  | fuel + 1, start, stop, index, tstart, tstop =>
    if start > tstop ∨ stop < tstart then none
    else if start ≤ tstart ∧ stop ≥ tstop then some (tree.getD index 0)
    else
      let mid := (tstart + tstop) / 2
      pymax (query_helper tree fuel start (min stop mid) (2 * index + 1) tstart mid)
            (query_helper tree fuel (max start (mid + 1)) stop (2 * index + 2) (mid + 1) tstop)

/-- Method `query` of python_12_feb_910.py.  Note that the source computes
`n = len(self.tree) // 2`, which is twice the length of the original input
array, and then queries against the segment `[0, n - 1]` — the bounds the
tree was NOT built over (the constructor builds over `[0, len(arr) - 1]`).
This is the off-by-one at the heart of claims C2 and C3. -/
def query (tree : List Int) (start stop : Nat) : Option Int :=
  let n := tree.length / 2
  query_helper tree (tree.length + 1) start stop 0 0 (n - 1)

end SegTreeMax

namespace Dijkstra

/-- The value of Python `sys.maxsize` on a 64-bit build, used by `dijkstra`
of python_16_feb_264.py as the initial distance. -/
def maxsize : Int := 2 ^ 63 - 1

/-- Lexicographic strict order on the `(distance, node)` tuples that
`heapq` compares. -/
def tupleLt (a b : Int × String) : Bool :=
  a.1 < b.1 || (a.1 == b.1 && a.2 < b.2)

/-- Minimum of a non-empty collection of heap entries, used to model
`heapq.heappop` (the heap always pops a minimal tuple). -/
def heapMin : Int × String → List (Int × String) → Int × String
  | best, [] => best
  | best, x :: rest => heapMin (if tupleLt x best then x else best) rest

/-- Model of `heapq.heappop`: returns the minimal tuple and the remaining
entries. -/
def heappop (pq : List (Int × String)) : Option ((Int × String) × List (Int × String)) :=
  match pq with
  | [] => none
  | x :: rest =>
    let m := heapMin x rest
    some (m, pq.erase m)

/-- Lookup in a Python dict modelled as an insertion-ordered association
list. -/
def lookup (d : List (String × Int)) (k : String) : Option Int :=
  (d.find? (fun p => p.1 == k)).map (fun p => p.2)

/-- Python dict assignment `d[k] = v`: overwrites in place when the key is
present, appends otherwise. -/
def setk (d : List (String × Int)) (k : String) (v : Int) : List (String × Int) :=
  if d.any (fun p => p.1 == k) then
    d.map (fun p => if p.1 == k then (k, v) else p)
  else d ++ [(k, v)]

/-- The inner `for neighbor, weight in graph[current_node].items()` loop of
`dijkstra` (python_16_feb_264.py, lines 34–41).  The source never
initializes the name `previous`, so the statement
`previous[neighbor] = current_node` executed on the first successful
relaxation raises `NameError: name 'previous' is not defined`; the embedding
surfaces that as an error result. -/
def relaxAll (distances : List (String × Int)) (cd : Int) :
    List (String × Int) → Except String (List (String × Int))
  | [] => Except.ok distances
  | (nb, w) :: rest =>
    let distance := cd + w
    match lookup distances nb with
    | none => Except.error "KeyError"
    | some dn =>
      if distance < dn then
        Except.error "NameError: name previous is not defined"
      else relaxAll distances cd rest

/-- The `while len(pq) > 0` loop of `dijkstra` (python_16_feb_264.py).
When the queue empties, the source executes `return distances, previous`,
which also dereferences the uninitialized name `previous`.  `fuel` models
the iteration budget and is never exhausted on the runs evaluated here
(the function errors out before it could matter). -/
def loop (graph : List (String × List (String × Int))) :
    Nat → List (String × Int) → List (Int × String) → Except String (List (String × Int))
  | 0, _, _ => Except.error "fuel exhausted"
  | fuel + 1, distances, pq =>
    match heappop pq with
    | none => Except.error "NameError: name previous is not defined"
    | some ((cd, cn), pq1) =>
      match lookup distances cn with
      | none => Except.error "KeyError"
      | some dcn =>
        if cd > dcn then loop graph fuel distances pq1
        else
          match (graph.find? (fun p => p.1 == cn)).map (fun p => p.2) with
          | none => Except.error "KeyError"
          | some nbrs =>
            match relaxAll distances cd nbrs with
            | Except.error e => Except.error e
            | Except.ok distances1 => loop graph fuel distances1 pq1

/-- Function `dijkstra` of `tutorials/2026/02/python_16_feb_264.py`:
initializes every node's distance to `sys.maxsize`, the start node to 0,
seeds the priority queue with `(0, start)` and runs the relaxation loop.
Nodes are strings, the graph an insertion-ordered adjacency association
list, matching the example dict of the file. -/
def dijkstra (graph : List (String × List (String × Int))) (start : String) :
    Except String (List (String × Int)) :=
  let distances := setk (graph.map (fun p => (p.1, maxsize))) start 0
  loop graph ((graph.length + 1) * (graph.length + 1)) distances [(0, start)]

/-- The example graph of python_16_feb_264.py (also the graph named by the
spec): A:\x7bB:1,C:3\x7d, B:\x7bA:1,C:2,D:4\x7d, C:\x7bA:3,B:2,D:5\x7d,
D:\x7bB:4,C:5\x7d. -/
def exampleGraph : List (String × List (String × Int)) :=
  [("A", [("B", 1), ("C", 3)]),
   ("B", [("A", 1), ("C", 2), ("D", 4)]),
   ("C", [("A", 3), ("B", 2), ("D", 5)]),
   ("D", [("B", 4), ("C", 5)])]

end Dijkstra

namespace BFS

/-- Python list indexing for adjacency lists: `graph[node]` succeeds for
`-len(graph) ≤ node < len(graph)`, with a negative index aliasing position
`len(graph) + node`, and raises IndexError otherwise. -/
def pyIndex (g : List (List Int)) (i : Int) : Option (List Int) :=
  if 0 ≤ i ∧ i < (g.length : Int) then some (g.getD i.toNat [])
  else if -(g.length : Int) ≤ i ∧ i < 0 then some (g.getD ((g.length : Int) + i).toNat [])
  else none

/-- Helper for `create_graph`: `graph[j].append(v)`. -/
def appendAt (g : List (List Int)) (j : Nat) (v : Int) : List (List Int) :=
  g.set j (g.getD j [] ++ [v])

/-- Function `create_graph` of `tutorials/2026/02/python_09_feb_788.py`:
builds the chain graph on `n_nodes` nodes, appending `i + 1` to `graph[i]`
and `i` to `graph[i + 1]` for each `i` in `range(n_nodes - 1)`. -/
def create_graph (n_nodes : Nat) : List (List Int) :=
  (List.range (n_nodes - 1)).foldl
    (fun g i => appendAt (appendAt g i ((i : Int) + 1)) (i + 1) (i : Int))
    (List.replicate n_nodes [])

/-- The `for neighbor in graph[node]` loop of `bfs_traversal`: each
neighbor not yet visited is marked visited and appended to the back of the
queue.  The visited set is modelled as a list used only through
membership. -/
def enqueue (visited queue : List Int) (nbrs : List Int) : List Int × List Int :=
  nbrs.foldl
    (fun vq nb => if nb ∈ vq.1 then vq else (nb :: vq.1, vq.2 ++ [nb]))
    (visited, queue)

/-- The `while queue` loop of `bfs_traversal`
(`tutorials/2026/02/python_09_feb_788.py`): pop the front node, emit it
(the source prints it; the emitted sequence is the output here), then
enqueue its unvisited neighbors.  An out-of-range `graph[node]` raises
IndexError, surfaced as an error result.  `fuel` models the iteration
budget. -/
def bfs_loop (g : List (List Int)) :
    Nat → List Int → List Int → List Int → Except String (List Int)
  | 0, _, _, _ => Except.error "fuel exhausted"
  | fuel + 1, visited, queue, out =>
    match queue with
    | [] => Except.ok out
    | node :: rest =>
      match pyIndex g node with
      | none => Except.error "IndexError: list index out of range"
      | some nbrs =>
        let vq := enqueue visited rest nbrs
        bfs_loop g fuel vq.1 vq.2 (out ++ [node])

/-- Function `bfs_traversal` of `tutorials/2026/02/python_09_feb_788.py`:
seeds the queue and visited set with the start node and runs the loop.  The
fuel `2 * g.length + 2` dominates the iteration count of every Python run:
each value enters the queue at most once, a popped value must be a valid
Python index (in `[-n, n)`, else the run stops with IndexError), so at most
`2n` pops precede the final empty-queue check. -/
def bfs_traversal (g : List (List Int)) (start_node : Int) : Except String (List Int) :=
  bfs_loop g (2 * g.length + 2) [start_node] [start_node] []

/-- Hop-count walks of the unweighted graph: `Reaches g s v k` holds when
there is a walk of `k` edges from `s` to `v` along the adjacency lists
(over the genuine node indices `0 ≤ u < len(g)`). -/
inductive Reaches (g : List (List Int)) (s : Int) : Int → Nat → Prop
  | refl : Reaches g s s 0
  | step {u v : Int} {k : Nat} : Reaches g s u k → 0 ≤ u → u < (g.length : Int) →
      v ∈ g.getD u.toNat [] → Reaches g s v (k + 1)

/-- The hop count of `v` from `s`: `d` is the length of a shortest walk. -/
def IsLeastDist (g : List (List Int)) (s v : Int) (d : Nat) : Prop :=
  Reaches g s v d ∧ ∀ k, Reaches g s v k → d ≤ k

/-- Well-formed adjacency structure: every listed neighbor is a genuine
node index. -/
def WF (g : List (List Int)) : Prop :=
  ∀ l ∈ g, ∀ v ∈ l, 0 ≤ v ∧ v < (g.length : Int)

/-- Connectivity from a start node: every node is reachable from it. -/
def ConnectedFrom (g : List (List Int)) (s : Int) : Prop :=
  ∀ v : Int, 0 ≤ v → v < (g.length : Int) → ∃ k, Reaches g s v k

/-- Hop-count comparison: every least distance of `u` is at most every
least distance of `v`. -/
def DistLE (g : List (List Int)) (s u v : Int) : Prop :=
  ∀ du dv, IsLeastDist g s u du → IsLeastDist g s v dv → du ≤ dv

/-- Window comparison inside the BFS queue: the least distance of `u`
exceeds that of `v` by at most one. -/
def DistWin (g : List (List Int)) (s u v : Int) : Prop :=
  ∀ du dv, IsLeastDist g s u du → IsLeastDist g s v dv → du ≤ dv + 1

/-- The BFS loop invariant over visited set `V`, queue `Q` and emitted
sequence `O`: the visited set is exactly the emitted and queued nodes, all
visited nodes are genuine reachable node indices, emitted-then-queued
nodes have non-decreasing least distances, the queue spans at most two
consecutive BFS levels, every neighbor of an emitted node is visited, and
the start is visited. -/
def BfsInv (g : List (List Int)) (s : Int) (V Q O : List Int) : Prop :=
  (∀ v : Int, v ∈ V ↔ (v ∈ O ∨ v ∈ Q)) ∧
  (∀ v ∈ V, 0 ≤ v ∧ v < (g.length : Int)) ∧
  (∀ v ∈ V, ∃ d, IsLeastDist g s v d) ∧
  List.Pairwise (DistLE g s) (O ++ Q) ∧
  (∀ u ∈ Q, ∀ v ∈ Q, DistWin g s u v) ∧
  (∀ u ∈ O, ∀ v ∈ g.getD u.toNat [], v ∈ V) ∧
  s ∈ V

end BFS

namespace UnionFind

/-- Python list read `parent[x]` on the parent list: succeeds for
`-n ≤ x < n` with a negative index aliasing position `n + x`, and raises
IndexError otherwise. -/
def pyGet (p : List Int) (x : Int) : Option Int :=
  if 0 ≤ x ∧ x < (p.length : Int) then some (p.getD x.toNat 0)
  else if -(p.length : Int) ≤ x ∧ x < 0 then some (p.getD ((p.length : Int) + x).toNat 0)
  else none

/-- Python list write `parent[x] = v`, with the same index rule. -/
def pySet (p : List Int) (x v : Int) : Option (List Int) :=
  if 0 ≤ x ∧ x < (p.length : Int) then some (p.set x.toNat v)
  else if -(p.length : Int) ≤ x ∧ x < 0 then some (p.set ((p.length : Int) + x).toNat v)
  else none

/-- Constructor `UnionFind.__init__` of
`tutorials/2026/02/python_17_feb_683.py`: `self.parent = list(range(n))`. -/
def init (n : Nat) : List Int :=
  (List.range n).map (fun i : Nat => (i : Int))

/-- Method `find` of python_17_feb_683.py, with path compression:
`if self.parent[x] != x: self.parent[x] = self.find(self.parent[x])`
followed by `return self.parent[x]`.  The mutated parent list is threaded
explicitly and returned next to the result; `fuel` models the Python call
stack (a cyclic parent list would exhaust it, mirroring RecursionError). -/
def find : Nat → List Int → Int → Except String (List Int × Int)
  | 0, _, _ => Except.error "RecursionError: maximum recursion depth exceeded"
  | fuel + 1, p, x =>
    match pyGet p x with
    | none => Except.error "IndexError: list index out of range"
    | some px =>
      if px = x then Except.ok (p, x)
      else
        match find fuel p px with
        | Except.error e => Except.error e
        | Except.ok (p1, r) =>
          match pySet p1 x r with
          | none => Except.error "IndexError: list assignment index out of range"
          | some p2 =>
            match pyGet p2 x with
            | none => Except.error "IndexError: list index out of range"
            | some rx => Except.ok (p2, rx)

/-- Method `union` of python_17_feb_683.py: find both roots and, when they
differ, make `root_x` point at `root_y`.  The recursion fuel
`p.length + 1` dominates the depth of every `find` call on an acyclic
parent forest. -/
def union (p : List Int) (x y : Int) : Except String (List Int) :=
  match find (p.length + 1) p x with
  | Except.error e => Except.error e
  | Except.ok (p1, root_x) =>
    match find (p1.length + 1) p1 y with
    | Except.error e => Except.error e
    | Except.ok (p2, root_y) =>
      if root_x ≠ root_y then
        match pySet p2 root_x root_y with
        | none => Except.error "IndexError: list assignment index out of range"
        | some p3 => Except.ok p3
      else Except.ok p2

/-- A fresh `UnionFind(n)` followed by the given sequence of
`union` calls. -/
def runUnions (n : Nat) (us : List (Int × Int)) : Except String (List Int) :=
  us.foldlM (fun p xy => union p xy.1 xy.2) (init n)

/-- Two ids are connected, directly or transitively, by the prior union
calls: the equivalence closure of the unioned pairs. -/
def Linked (us : List (Int × Int)) (x y : Int) : Prop :=
  Relation.EqvGen (fun a b => (a, b) ∈ us) x y

/-- One parent-link read over the genuine indices (proof-side shorthand;
every state considered keeps all entries, and all ids followed, in
`[0, n)`). -/
def pstep (p : List Int) (x : Int) : Int :=
  p.getD x.toNat 0

/-- Root-reaching relation of a parent list: `RootRel p x r` holds when
following parent links from `x` reaches the fixpoint `r`. -/
inductive RootRel (p : List Int) : Int → Int → Prop
  | root {x : Int} : pstep p x = x → RootRel p x x
  | step {x r : Int} : pstep p x ≠ x → RootRel p (pstep p x) r → RootRel p x r

/-- Step-counted version of `RootRel`: the root is reached in exactly `k`
parent-link steps. -/
inductive RootRelN (p : List Int) : Int → Int → Nat → Prop
  | root {x : Int} : pstep p x = x → RootRelN p x x 0
  | step {x r : Int} {k : Nat} : pstep p x ≠ x → RootRelN p (pstep p x) r k →
      RootRelN p x r (k + 1)

/-- The list of nodes visited by following `k` parent links from `x`. -/
def chain (p : List Int) : Nat → Int → List Int
  | 0, x => [x]
  | k + 1, x => x :: chain p k (pstep p x)

/-- Two ids reach a common root. -/
def SameRoot (p : List Int) (x y : Int) : Prop :=
  ∃ r, RootRel p x r ∧ RootRel p y r

/-- Invariant of every parent state reachable by a sequence `us` of union
calls on a fresh `UnionFind(n)`: correct length, every parent entry of a
genuine id again a genuine id, every id rooted, and the same-root relation
coinciding with the connectivity generated by the recorded union pairs. -/
def Inv (n : Nat) (us : List (Int × Int)) (p : List Int) : Prop :=
  p.length = n ∧
  (∀ z : Int, 0 ≤ z → z < (n : Int) → 0 ≤ pstep p z ∧ pstep p z < (n : Int)) ∧
  (∀ z : Int, 0 ≤ z → z < (n : Int) → ∃ r, RootRel p z r) ∧
  (∀ z w : Int, 0 ≤ z → z < (n : Int) → 0 ≤ w → w < (n : Int) →
    (SameRoot p z w ↔ Linked us z w))

end UnionFind

namespace MergeSortV1

theorem mem_merge {α : Type} [LinearOrder α] (x : α) :
    ∀ (l r : List α), x ∈ merge l r ↔ x ∈ l ∨ x ∈ r
  | [], r => by simp [merge]
  | a :: l, [] => by simp [merge]
  | a :: l, b :: r => by
    rw [merge]
    split
    · simp only [List.mem_cons, mem_merge x l (b :: r), List.mem_cons]
      tauto
    · simp only [List.mem_cons, mem_merge x (a :: l) r, List.mem_cons]
      tauto
termination_by l r => l.length + r.length

theorem merge_sorted {α : Type} [LinearOrder α] :
    ∀ (l r : List α), l.Sorted (· ≤ ·) → r.Sorted (· ≤ ·) →
      (merge l r).Sorted (· ≤ ·)
  | [], r, _, hr => by simpa [merge] using hr
  | a :: l, [], hl, _ => by simpa [merge] using hl
  | a :: l, b :: r, hl, hr => by
    rw [merge]
    rw [List.sorted_cons] at hl hr
    split
    · next hab =>
      rw [List.sorted_cons]
      refine ⟨?_, merge_sorted l (b :: r) hl.2 (List.sorted_cons.mpr hr)⟩
      intro y hy
      rcases (mem_merge y l (b :: r)).mp hy with h | h
      · exact hl.1 y h
      · rcases List.mem_cons.mp h with rfl | h
        · exact hab
        · exact le_trans hab (hr.1 y h)
    · next hab =>
      have hba : b ≤ a := le_of_not_le hab
      rw [List.sorted_cons]
      refine ⟨?_, merge_sorted (a :: l) r (List.sorted_cons.mpr hl) hr.2⟩
      intro y hy
      rcases (mem_merge y (a :: l) r).mp hy with h | h
      · rcases List.mem_cons.mp h with rfl | h
        · exact hba
        · exact le_trans hba (hl.1 y h)
      · exact hr.1 y h
termination_by l r => l.length + r.length

/-- When the concatenation of the two inputs is already sorted, the merge
loop consumes the whole left list first and returns the concatenation. -/
theorem merge_of_sorted_append {α : Type} [LinearOrder α] :
    ∀ (l r : List α), (l ++ r).Sorted (· ≤ ·) → merge l r = l ++ r
  | [], r, _ => by cases r <;> simp [merge]
  | a :: l, [], _ => by simp [merge]
  | a :: l, b :: r, h => by
    rw [merge]
    have hab : a ≤ b := by
      rw [List.cons_append, List.sorted_cons] at h
      exact h.1 b (by simp)
    rw [if_pos hab, List.cons_append]
    have ht : (l ++ b :: r).Sorted (· ≤ ·) := by
      rw [List.cons_append, List.sorted_cons] at h
      exact h.2
    rw [merge_of_sorted_append l (b :: r) ht]
termination_by l r => l.length + r.length

theorem merge_sort_sorted {α : Type} [LinearOrder α] (arr : List α) :
    (merge_sort arr).Sorted (· ≤ ·) := by
  rw [merge_sort]
  split
  · next h =>
    match arr, h with
    | [], _ => exact List.sorted_nil
    | [a], _ => exact List.sorted_singleton a
  · next h =>
    exact merge_sorted _ _
      (merge_sort_sorted (arr.take (arr.length / 2)))
      (merge_sort_sorted (arr.drop (arr.length / 2)))
termination_by arr.length
decreasing_by
  · simp only [List.length_take]
    omega
  · simp only [List.length_drop]
    omega

/-- Sorting a list that is already sorted returns it unchanged. -/
theorem merge_sort_of_sorted {α : Type} [LinearOrder α] (arr : List α)
    (h : arr.Sorted (· ≤ ·)) : merge_sort arr = arr := by
  rw [merge_sort]
  split
  · rfl
  · next hlen =>
    have htake : (arr.take (arr.length / 2)).Sorted (· ≤ ·) :=
      h.sublist (List.take_sublist _ _)
    have hdrop : (arr.drop (arr.length / 2)).Sorted (· ≤ ·) :=
      h.sublist (List.drop_sublist _ _)
    rw [merge_sort_of_sorted _ htake, merge_sort_of_sorted _ hdrop,
      merge_of_sorted_append, List.take_append_drop]
    rw [List.take_append_drop]
    exact h
termination_by arr.length
decreasing_by
  · simp only [List.length_take]
    omega
  · simp only [List.length_drop]
    omega

end MergeSortV1

namespace MergeSortV2

theorem merge_eq_v1 {α : Type} [LinearOrder α] :
    ∀ (l r : List α), merge l r = MergeSortV1.merge l r
  | [], r => by simp [merge, MergeSortV1.merge]
  | a :: l, [] => by simp [merge, MergeSortV1.merge]
  | a :: l, b :: r => by
    rw [merge, MergeSortV1.merge]
    split
    · rw [merge_eq_v1 l (b :: r)]
    · rw [merge_eq_v1 (a :: l) r]
termination_by l r => l.length + r.length

theorem merge_sort_eq_v1 {α : Type} [LinearOrder α] (arr : List α) :
    merge_sort arr = MergeSortV1.merge_sort arr := by
  rw [merge_sort, MergeSortV1.merge_sort]
  split
  · rfl
  · rw [merge_eq_v1, merge_sort_eq_v1 (arr.take (arr.length / 2)),
      merge_sort_eq_v1 (arr.drop (arr.length / 2))]
termination_by arr.length
decreasing_by
  · simp only [List.length_take]
    omega
  · simp only [List.length_drop]
    omega

end MergeSortV2

/-- Claim C9: `merge_sort` (python_10_feb_246.py) is idempotent —
`merge_sort (merge_sort xs) = merge_sort xs` for every finite list — and it
returns an already-sorted sequence (in particular the empty sequence)
unchanged. -/
theorem claim_C9 {α : Type} [LinearOrder α] (xs : List α) :
    MergeSortV1.merge_sort (MergeSortV1.merge_sort xs) = MergeSortV1.merge_sort xs ∧
    (xs.Sorted (· ≤ ·) → MergeSortV1.merge_sort xs = xs) ∧
    MergeSortV1.merge_sort ([] : List α) = [] :=
  ⟨MergeSortV1.merge_sort_of_sorted _ (MergeSortV1.merge_sort_sorted xs),
   fun h => MergeSortV1.merge_sort_of_sorted xs h,
   MergeSortV1.merge_sort_of_sorted [] List.sorted_nil⟩

/-- Witness for C9 at the concrete input of the spec example: the sorted
sequence `[11, 12, 22, 25, 34, 64, 90]` is returned unchanged, and sorting
`[64, 34, 25, 12, 22, 11, 90]` twice equals sorting it once. -/
theorem claim_C9_witness :
    ([11, 12, 22, 25, 34, 64, 90] : List Int).Sorted (· ≤ ·) ∧
    MergeSortV1.merge_sort ([11, 12, 22, 25, 34, 64, 90] : List Int) =
      [11, 12, 22, 25, 34, 64, 90] ∧
    MergeSortV1.merge_sort (MergeSortV1.merge_sort ([64, 34, 25, 12, 22, 11, 90] : List Int)) =
      MergeSortV1.merge_sort ([64, 34, 25, 12, 22, 11, 90] : List Int) :=
  ⟨by decide,
   (claim_C9 ([11, 12, 22, 25, 34, 64, 90] : List Int)).2.1 (by decide),
   (claim_C9 ([64, 34, 25, 12, 22, 11, 90] : List Int)).1⟩

/-- Claim C10: the index-based merge sort of python_10_feb_246.py and the
pop-based merge sort of python_18_feb_547.py compute the same function on
every finite list of comparable values. -/
theorem claim_C10 {α : Type} [LinearOrder α] (xs : List α) :
    MergeSortV2.merge_sort xs = MergeSortV1.merge_sort xs :=
  MergeSortV2.merge_sort_eq_v1 xs

/-- Claim C1, evaluated on the code: for the spec's example weighted graph
with source A, `dijkstra` does not return the distance mapping
A:0, B:1, C:3, D:5 with a predecessor mapping — the source never
initializes the dictionary `previous`, so the first successful edge
relaxation (A to B) executes `previous[neighbor] = current_node` on an
undefined name and the call dies with a NameError. -/
theorem claim_C1 :
    Dijkstra.dijkstra Dijkstra.exampleGraph "A" =
      Except.error "NameError: name previous is not defined" := by
  rfl

/-- Claim C2, evaluated on the max segment tree of python_12_feb_910.py at
the file's own example array: the full-range query `query(0, 4)` returns 3,
while the maximum recomputed directly from the array is 10.  The cause is
`n = len(self.tree) // 2` in `query`, which is twice the input length, so
`query_helper` descends with the wrong tree bounds. -/
theorem claim_C2 :
    SegTreeMax.query (SegTreeMax.mk [3, -5, 0, -7, 10]) 0 4 = some 3 ∧
    ([3, -5, 0, -7, 10] : List Int).maximum = some 10 := by
  constructor
  · decide
  · decide

/-- Claim C3, evaluated on the same tree: the single-point query
`query(0, 0)` returns 0 (an untouched slot of the backing array), not the
value 3 stored at index 0 of the input array. -/
theorem claim_C3 :
    SegTreeMax.query (SegTreeMax.mk [3, -5, 0, -7, 10]) 0 0 = some 0 ∧
    ([3, -5, 0, -7, 10] : List Int).getD 0 0 = 3 := by
  constructor
  · decide
  · decide

namespace MonotonicStack

theorem dropWhile_le {v : Int} :
    ∀ (l : List Int), l.Pairwise (fun a b => b ≤ a) →
      ∀ x ∈ List.dropWhile (fun t => decide (v < t)) l, x ≤ v
  | [], _, x, hx => by simp [List.dropWhile] at hx
  | a :: l, hp, x, hx => by
    rw [List.pairwise_cons] at hp
    by_cases hva : v < a
    · rw [List.dropWhile_cons_of_pos (by simpa using hva)] at hx
      exact dropWhile_le l hp.2 x hx
    · rw [List.dropWhile_cons_of_neg (by simpa using hva)] at hx
      push_neg at hva
      rcases List.mem_cons.mp hx with rfl | hx
      · exact hva
      · exact le_trans (hp.1 x hx) hva

theorem push_sorted {s : List Int} (h : s.Sorted (fun a b => a ≤ b)) (v : Int) :
    (push s v).Sorted (fun a b => a ≤ b) := by
  have hrev : s.reverse.Pairwise (fun a b => b ≤ a) := by
    rw [List.pairwise_reverse]
    exact h
  have hkept : (List.dropWhile (fun t => decide (v < t)) s.reverse).Pairwise
      (fun a b => b ≤ a) :=
    hrev.sublist (List.dropWhile_sublist _)
  rw [push, List.Sorted, List.pairwise_append]
  refine ⟨?_, List.pairwise_singleton _ _, ?_⟩
  · rw [List.pairwise_reverse]
    exact hkept
  · intro a ha b hb
    rw [List.mem_singleton] at hb
    subst hb
    exact dropWhile_le s.reverse hrev a (List.mem_reverse.mp ha)

theorem foldl_push_sorted (vs : List Int) :
    ∀ s : List Int, s.Sorted (fun a b => a ≤ b) →
      (vs.foldl push s).Sorted (fun a b => a ≤ b) := by
  induction vs with
  | nil => intro s hs; simpa using hs
  | cons v vs ih =>
    intro s hs
    rw [List.foldl_cons]
    exact ih _ (push_sorted hs v)

end MonotonicStack

/-- Claim C6: for every finite sequence of values pushed onto an initially
empty MonotonicStack with no intervening pops, the resulting stack read
from bottom (index 0) to top is non-decreasing — the direction this
implementation maintains, since `push` evicts top elements strictly
greater than the incoming value. -/
theorem claim_C6 (vs : List Int) :
    (vs.foldl MonotonicStack.push []).Sorted (fun a b => a ≤ b) :=
  MonotonicStack.foldl_push_sorted vs [] List.sorted_nil

/-- Counterexample to claim C4 as stated: the start node -1 is absent from
the graph (the chain graph on nodes 0..5 produced by `create_graph 6`), yet
`bfs_traversal` does not fail — Python negative indexing lets `graph[-1]`
alias node 5, and a full traversal (beginning with the phantom node -1) is
produced. -/
theorem claim_C4_counterexample :
    BFS.bfs_traversal (BFS.create_graph 6) (-1) = Except.ok [-1, 4, 3, 5, 2, 1, 0] ∧
    ¬ (0 ≤ (-1 : Int) ∧ (-1 : Int) < ((BFS.create_graph 6).length : Int)) := by
  constructor
  · rfl
  · decide

/-- Claim C4 as amended: for every graph and every start node outside
Python's valid index range for the adjacency list (that is, `start ≥ n` or
`start < -n`), `bfs_traversal` fails with an IndexError — the code's
realization of InvalidNodeError — rather than returning a traversal.
Start nodes in `[-n, -1]`, although absent from the graph, alias node
`n + start` by negative indexing and yield a traversal (see the
counterexample). -/
theorem claim_C4 (g : List (List Int)) (start : Int)
    (h : (g.length : Int) ≤ start ∨ start < -(g.length : Int)) :
    BFS.bfs_traversal g start = Except.error "IndexError: list index out of range" := by
  have hidx : BFS.pyIndex g start = none := by
    rw [BFS.pyIndex, if_neg (by omega), if_neg (by omega)]
  rw [BFS.bfs_traversal]
  show BFS.bfs_loop g (2 * g.length + 1 + 1) [start] [start] [] = _
  rw [BFS.bfs_loop, hidx]

/-- Witness for the amended C4 at a concrete input: starting BFS on the
6-node chain graph from the absent node 6 raises IndexError. -/
theorem claim_C4_witness :
    ((BFS.create_graph 6).length : Int) ≤ 6 ∧
    BFS.bfs_traversal (BFS.create_graph 6) 6 =
      Except.error "IndexError: list index out of range" :=
  ⟨by decide, claim_C4 (BFS.create_graph 6) 6 (Or.inl (by decide))⟩

namespace UnionFind

theorem init_length (n : Nat) : (init n).length = n := by
  rw [init, List.length_map, List.length_range]

theorem init_getD {n k : Nat} (h : k < n) : (init n).getD k 0 = (k : Int) := by
  have h1 : (init n)[k]? = some (k : Int) := by
    rw [init, List.getElem?_map, List.getElem?_range h]
    rfl
  rw [List.getD_eq_getElem?_getD, h1, Option.getD_some]

theorem pyGet_init_none {n : Nat} {x : Int}
    (hx : (n : Int) ≤ x ∨ x < -(n : Int)) : pyGet (init n) x = none := by
  rw [pyGet, init_length, if_neg (by omega), if_neg (by omega)]

theorem find_init_valid {n : Nat} {a : Int} (h0 : 0 ≤ a) (hn : a < (n : Int)) :
    find ((init n).length + 1) (init n) a = Except.ok (init n, a) := by
  have hget : pyGet (init n) a = some a := by
    rw [pyGet, init_length, if_pos ⟨h0, hn⟩, init_getD (by omega : a.toNat < n)]
    congr 1
    omega
  rw [find, hget]
  simp

end UnionFind

/-- Counterexample to claim C8 as stated: on a fresh `UnionFind(6)`, the id
-1 lies outside the universe `[0, 6)`, yet `find(-1)` does not fail — by
Python negative indexing `parent[-1]` aliases `parent[5]`, and the call
silently returns the root 5 (leaving the parent list unchanged). -/
theorem claim_C8_counterexample :
    UnionFind.find ((UnionFind.init 6).length + 1) (UnionFind.init 6) (-1) =
      Except.ok (UnionFind.init 6, 5) ∧
    ¬ (0 ≤ (-1 : Int) ∧ (-1 : Int) < 6) := by
  constructor
  · rfl
  · decide

/-- Claim C8 as amended: on a freshly constructed `UnionFind(n)`, calling
`find` or `union` with an id `x ≥ n` or `x < -n` (outside Python's index
range for the parent list) fails with IndexError — the code's realization
of an EmptyStructureError-class error — in either argument position of
`union`.  Ids in `[-n, -1]`, although outside the universe, alias
`n + x` by negative indexing and silently return a result (see the
counterexample). -/
theorem claim_C8 (n : Nat) (x : Int)
    (hx : (n : Int) ≤ x ∨ x < -(n : Int)) :
    UnionFind.find ((UnionFind.init n).length + 1) (UnionFind.init n) x =
      Except.error "IndexError: list index out of range" ∧
    (∀ y : Int, UnionFind.union (UnionFind.init n) x y =
      Except.error "IndexError: list index out of range") ∧
    (∀ a : Int, 0 ≤ a → a < (n : Int) → UnionFind.union (UnionFind.init n) a x =
      Except.error "IndexError: list index out of range") := by
  have hfind : UnionFind.find ((UnionFind.init n).length + 1) (UnionFind.init n) x =
      Except.error "IndexError: list index out of range" := by
    rw [UnionFind.find, UnionFind.pyGet_init_none hx]
  refine ⟨hfind, ?_, ?_⟩
  · intro y
    rw [UnionFind.union, hfind]
  · intro a h0 hn
    simp only [UnionFind.union, UnionFind.find_init_valid h0 hn, hfind]

/-- Witness for the amended C8 at a concrete input: on `UnionFind(6)`, the
id 7 makes `find(7)`, `union(7, 0)` and `union(0, 7)` all raise
IndexError. -/
theorem claim_C8_witness :
    (6 : Int) ≤ 7 ∧
    UnionFind.find ((UnionFind.init 6).length + 1) (UnionFind.init 6) 7 =
      Except.error "IndexError: list index out of range" ∧
    UnionFind.union (UnionFind.init 6) 7 0 =
      Except.error "IndexError: list index out of range" ∧
    UnionFind.union (UnionFind.init 6) 0 7 =
      Except.error "IndexError: list index out of range" :=
  ⟨by decide,
   (claim_C8 6 7 (Or.inl (by decide))).1,
   (claim_C8 6 7 (Or.inl (by decide))).2.1 0,
   (claim_C8 6 7 (Or.inl (by decide))).2.2 0 (by decide) (by decide)⟩

namespace UnionFind

theorem rootRel_functional {p : List Int} {x r s : Int}
    (h1 : RootRel p x r) (h2 : RootRel p x s) : r = s := by
  induction h1 with
  | root hx =>
    cases h2 with
    | root _ => rfl
    | step hne _ => exact absurd hx hne
  | step hne _ ih =>
    cases h2 with
    | root hx => exact absurd hx hne
    | step _ h2t => exact ih h2t

theorem rootRel_fix {p : List Int} {x r : Int} (h : RootRel p x r) :
    pstep p r = r := by
  induction h with
  | root hx => exact hx
  | step _ _ ih => exact ih

theorem rootRel_of_fix {p : List Int} {r : Int} (h : pstep p r = r) :
    RootRel p r r :=
  RootRel.root h

theorem rootRel_of_rootRelN {p : List Int} {x r : Int} {k : Nat}
    (h : RootRelN p x r k) : RootRel p x r := by
  induction h with
  | root hx => exact RootRel.root hx
  | step hne _ ih => exact RootRel.step hne ih

theorem rootRelN_of_rootRel {p : List Int} {x r : Int}
    (h : RootRel p x r) : ∃ k, RootRelN p x r k := by
  induction h with
  | root hx => exact ⟨0, RootRelN.root hx⟩
  | step hne _ ih =>
    rcases ih with ⟨k, hk⟩
    exact ⟨k + 1, RootRelN.step hne hk⟩

theorem rootRelN_succ_inv {p : List Int} {x r : Int} {k : Nat}
    (h : RootRelN p x r (k + 1)) :
    pstep p x ≠ x ∧ RootRelN p (pstep p x) r k := by
  cases h with
  | step hne ht => exact ⟨hne, ht⟩

theorem rootRel_range {n : Nat} {p : List Int}
    (hrange : ∀ z : Int, 0 ≤ z → z < (n : Int) →
      0 ≤ pstep p z ∧ pstep p z < (n : Int)) :
    ∀ {x r : Int}, RootRel p x r → 0 ≤ x → x < (n : Int) →
      0 ≤ r ∧ r < (n : Int) := by
  intro x r h
  induction h with
  | root _ => intro hx hxn; exact ⟨hx, hxn⟩
  | step _ _ ih =>
    intro hx hxn
    rcases hrange _ hx hxn with ⟨h1, h2⟩
    exact ih h1 h2

theorem chain_length (p : List Int) : ∀ (k : Nat) (x : Int),
    (chain p k x).length = k + 1 := by
  intro k
  induction k with
  | zero => intro x; rfl
  | succ k ih => intro x; rw [chain, List.length_cons, ih]

theorem mem_chain_rootRelN {p : List Int} {r : Int} :
    ∀ {k : Nat} {x : Int}, RootRelN p x r k →
      ∀ z ∈ chain p k x, ∃ j, j ≤ k ∧ RootRelN p z r j := by
  intro k
  induction k with
  | zero =>
    intro x h z hz
    rw [chain, List.mem_singleton] at hz
    subst hz
    exact ⟨0, le_refl 0, h⟩
  | succ k ih =>
    intro x h z hz
    rcases rootRelN_succ_inv h with ⟨hne, ht⟩
    rw [chain, List.mem_cons] at hz
    rcases hz with rfl | hz
    · exact ⟨k + 1, le_refl _, h⟩
    · rcases ih ht z hz with ⟨j, hj, hjr⟩
      exact ⟨j, Nat.le_succ_of_le hj, hjr⟩

theorem chain_range {n : Nat} {p : List Int}
    (hrange : ∀ z : Int, 0 ≤ z → z < (n : Int) →
      0 ≤ pstep p z ∧ pstep p z < (n : Int)) :
    ∀ (k : Nat) (x : Int), 0 ≤ x → x < (n : Int) →
      ∀ z ∈ chain p k x, 0 ≤ z ∧ z < (n : Int) := by
  intro k
  induction k with
  | zero =>
    intro x hx hxn z hz
    rw [chain, List.mem_singleton] at hz
    subst hz
    exact ⟨hx, hxn⟩
  | succ k ih =>
    intro x hx hxn z hz
    rw [chain, List.mem_cons] at hz
    rcases hz with rfl | hz
    · exact ⟨hx, hxn⟩
    · rcases hrange x hx hxn with ⟨h1, h2⟩
      exact ih (pstep p x) h1 h2 z hz

theorem chain_nodup {p : List Int} {r : Int} :
    ∀ {k : Nat} {x : Int}, RootRelN p x r k →
      (∀ j, RootRelN p x r j → k ≤ j) → (chain p k x).Nodup := by
  intro k
  induction k with
  | zero => intro x _ _; simp [chain]
  | succ k ih =>
    intro x h hmin
    rcases rootRelN_succ_inv h with ⟨hne, ht⟩
    rw [chain, List.nodup_cons]
    constructor
    · intro hmem
      rcases mem_chain_rootRelN ht x hmem with ⟨j, hj, hxj⟩
      have := hmin j hxj
      omega
    · refine ih ht (fun j hj => ?_)
      have := hmin (j + 1) (RootRelN.step hne hj)
      omega

theorem rootRelN_min {p : List Int} {x r : Int} (h : RootRel p x r) :
    ∃ k, RootRelN p x r k ∧ ∀ j, RootRelN p x r j → k ≤ j := by
  classical
  rcases rootRelN_of_rootRel h with ⟨k0, hk0⟩
  haveI : DecidablePred fun k => RootRelN p x r k := Classical.decPred _
  exact ⟨Nat.find ⟨k0, hk0⟩, Nat.find_spec ⟨k0, hk0⟩,
    fun j hj => Nat.find_min' ⟨k0, hk0⟩ hj⟩

theorem rootRelN_depth_lt {n : Nat} {p : List Int} {x r : Int} {k : Nat}
    (hrange : ∀ z : Int, 0 ≤ z → z < (n : Int) →
      0 ≤ pstep p z ∧ pstep p z < (n : Int))
    (hx : 0 ≤ x) (hxn : x < (n : Int))
    (hk : RootRelN p x r k) (hmin : ∀ j, RootRelN p x r j → k ≤ j) :
    k < n := by
  have hnd : (chain p k x).Nodup := chain_nodup hk hmin
  have hcard : (chain p k x).toFinset.card = k + 1 := by
    rw [List.toFinset_card_of_nodup hnd, chain_length]
  have hsub : (chain p k x).toFinset ⊆ Finset.Ico (0 : Int) (n : Int) := by
    intro z hz
    rw [List.mem_toFinset] at hz
    rcases chain_range hrange k x hx hxn z hz with ⟨h1, h2⟩
    rw [Finset.mem_Ico]
    exact ⟨h1, h2⟩
  have hle := Finset.card_le_card hsub
  rw [hcard, Int.card_Ico] at hle
  omega

end UnionFind

namespace UnionFind

theorem pstep_set_self {p : List Int} {x : Int} (v : Int)
    (h : x.toNat < p.length) : pstep (p.set x.toNat v) x = v := by
  rw [pstep, List.getD_eq_getElem?_getD, List.getElem?_set_eq_of_lt v h,
    Option.getD_some]

theorem pstep_set_ne {p : List Int} {x z : Int} (v : Int)
    (h : z.toNat ≠ x.toNat) : pstep (p.set x.toNat v) z = pstep p z := by
  rw [pstep, pstep, List.getD_eq_getElem?_getD, List.getD_eq_getElem?_getD,
    List.getElem?_set_ne (fun he => h he.symm)]

theorem toNat_ne_of_ne {x z : Int} (hx : 0 ≤ x) (hz : 0 ≤ z) (h : z ≠ x) :
    z.toNat ≠ x.toNat := by
  omega

/-- Redirecting a non-self-rooted id straight to its own root changes no
root assignment: `RootRel` is the same relation before and after the
compression write. -/
theorem rootRel_set_compress {n : Nat} {p : List Int} {x r : Int}
    (hlen : p.length = n)
    (hrange : ∀ z : Int, 0 ≤ z → z < (n : Int) →
      0 ≤ pstep p z ∧ pstep p z < (n : Int))
    (hx : 0 ≤ x) (hxn : x < (n : Int))
    (hxr : RootRel p x r) (hrx : r ≠ x) :
    ∀ {z s : Int}, 0 ≤ z → z < (n : Int) →
      (RootRel (p.set x.toNat r) z s ↔ RootRel p z s) := by
  have hxl : x.toNat < p.length := by omega
  have hr0 : 0 ≤ r ∧ r < (n : Int) := rootRel_range hrange hxr hx hxn
  have hfixr : pstep p r = r := rootRel_fix hxr
  have hpr2 : pstep (p.set x.toNat r) r = r := by
    rw [pstep_set_ne r (toNat_ne_of_ne hx hr0.1 hrx), hfixr]
  have hpx2 : pstep (p.set x.toNat r) x = r := pstep_set_self r hxl
  intro z s hz hzn
  constructor
  · intro h
    induction h with
    | root hfix =>
      rename_i w
      by_cases hwx : w = x
      · subst hwx
        rw [hpx2] at hfix
        exact absurd hfix hrx
      · rw [pstep_set_ne r (toNat_ne_of_ne hx hz hwx)] at hfix
        exact RootRel.root hfix
    | step hne ht ih =>
      rename_i w s'
      by_cases hwx : w = x
      · subst hwx
        rw [hpx2] at hne ht
        have hsr : s' = r := rootRel_functional ht (rootRel_of_fix hpr2)
        subst hsr
        exact hxr
      · rw [pstep_set_ne r (toNat_ne_of_ne hx hz hwx)] at hne ht ih
        rcases hrange w hz hzn with ⟨h1, h2⟩
        exact RootRel.step hne (ih h1 h2)
  · intro h
    induction h with
    | root hfix =>
      rename_i w
      have hwx : w ≠ x := by
        intro he
        subst he
        exact hrx (rootRel_functional hxr (RootRel.root hfix))
      rw [← pstep_set_ne r (toNat_ne_of_ne hx hz hwx)] at hfix
      exact RootRel.root hfix
    | step hne ht ih =>
      rename_i w s'
      by_cases hwx : w = x
      · subst hwx
        have hs' : s' = r := rootRel_functional (RootRel.step hne ht) hxr
        subst hs'
        refine RootRel.step (by rw [hpx2]; exact hrx) ?_
        rw [hpx2]
        exact rootRel_of_fix hpr2
      · rcases hrange w hz hzn with ⟨h1, h2⟩
        refine RootRel.step (by rwa [pstep_set_ne r (toNat_ne_of_ne hx hz hwx)]) ?_
        rw [pstep_set_ne r (toNat_ne_of_ne hx hz hwx)]
        exact ih h1 h2

end UnionFind

namespace UnionFind

theorem pyGet_valid {p : List Int} {x : Int} (hx : 0 ≤ x)
    (hxn : x < (p.length : Int)) : pyGet p x = some (pstep p x) := by
  rw [pyGet, if_pos ⟨hx, hxn⟩]
  rfl

theorem pySet_valid {p : List Int} {x : Int} (v : Int) (hx : 0 ≤ x)
    (hxn : x < (p.length : Int)) : pySet p x v = some (p.set x.toNat v) := by
  rw [pySet, if_pos ⟨hx, hxn⟩]

/-- Inversion for zero-step root reaching. -/
theorem rootRelN_zero_inv {p : List Int} {x r : Int}
    (h : RootRelN p x r 0) : r = x ∧ pstep p x = x := by
  cases h with
  | root hx => exact ⟨rfl, hx⟩

/-- Linking the root `ra` under the root `rb` (the `union` write) makes an
id reach `rb` exactly when its old root was `ra`. -/
theorem rootRel_link_redirect {n : Nat} {p : List Int} {ra rb : Int}
    (hrange : ∀ z : Int, 0 ≤ z → z < (n : Int) →
      0 ≤ pstep p z ∧ pstep p z < (n : Int))
    (ha0 : 0 ≤ ra) (hb0 : 0 ≤ rb)
    (hafix : pstep p ra = ra) (hbfix : pstep p rb = rb) (hab : ra ≠ rb)
    (hal : ra.toNat < p.length) :
    ∀ (k : Nat) (z : Int), 0 ≤ z → z < (n : Int) → RootRelN p z ra k →
      RootRel (p.set ra.toNat rb) z rb := by
  have hpa2 : pstep (p.set ra.toNat rb) ra = rb := pstep_set_self rb hal
  have hpb2 : pstep (p.set ra.toNat rb) rb = rb := by
    rw [pstep_set_ne rb (toNat_ne_of_ne ha0 hb0 (Ne.symm hab)), hbfix]
  intro k
  induction k with
  | zero =>
    intro z _ _ h
    rcases rootRelN_zero_inv h with ⟨he, _⟩
    subst he
    exact RootRel.step (by rw [hpa2]; exact Ne.symm hab)
      (by rw [hpa2]; exact RootRel.root hpb2)
  | succ k ih =>
    intro z hz hzn h
    rcases rootRelN_succ_inv h with ⟨hne, ht⟩
    have hza : z ≠ ra := by
      intro he
      subst he
      exact hne hafix
    rcases hrange z hz hzn with ⟨h1, h2⟩
    refine RootRel.step ?_ ?_
    · rwa [pstep_set_ne rb (toNat_ne_of_ne ha0 hz hza)]
    · rw [pstep_set_ne rb (toNat_ne_of_ne ha0 hz hza)]
      exact ih (pstep p z) h1 h2 ht

/-- The `union` write leaves every id with a root other than `ra`
untouched. -/
theorem rootRel_link_keep {n : Nat} {p : List Int} {ra rb : Int}
    (hrange : ∀ z : Int, 0 ≤ z → z < (n : Int) →
      0 ≤ pstep p z ∧ pstep p z < (n : Int))
    (ha0 : 0 ≤ ra)
    (hafix : pstep p ra = ra) :
    ∀ (k : Nat) (z s : Int), 0 ≤ z → z < (n : Int) → s ≠ ra →
      RootRelN p z s k → RootRel (p.set ra.toNat rb) z s := by
  intro k
  induction k with
  | zero =>
    intro z s hz hzn hs h
    rcases rootRelN_zero_inv h with ⟨he, hfix⟩
    subst he
    refine RootRel.root ?_
    rw [pstep_set_ne rb (toNat_ne_of_ne ha0 hz (fun he2 => hs he2)), hfix]
  | succ k ih =>
    intro z s hz hzn hs h
    rcases rootRelN_succ_inv h with ⟨hne, ht⟩
    have hza : z ≠ ra := by
      intro he
      subst he
      exact hne hafix
    rcases hrange z hz hzn with ⟨h1, h2⟩
    refine RootRel.step ?_ ?_
    · rwa [pstep_set_ne rb (toNat_ne_of_ne ha0 hz hza)]
    · rw [pstep_set_ne rb (toNat_ne_of_ne ha0 hz hza)]
      exact ih (pstep p z) s h1 h2 hs ht

/-- Forward direction of the `union` write analysis: any root assignment of
the written state comes from an old one, redirected through `ra` when
applicable. -/
theorem rootRel_link_fwd {n : Nat} {p : List Int} {ra rb : Int}
    (hrange : ∀ z : Int, 0 ≤ z → z < (n : Int) →
      0 ≤ pstep p z ∧ pstep p z < (n : Int))
    (ha0 : 0 ≤ ra) (hb0 : 0 ≤ rb)
    (hafix : pstep p ra = ra) (hbfix : pstep p rb = rb) (hab : ra ≠ rb)
    (hal : ra.toNat < p.length) :
    ∀ (k : Nat) (z s : Int), 0 ≤ z → z < (n : Int) →
      RootRelN (p.set ra.toNat rb) z s k →
      (RootRel p z ra ∧ s = rb) ∨ (RootRel p z s ∧ s ≠ ra) := by
  have hpa2 : pstep (p.set ra.toNat rb) ra = rb := pstep_set_self rb hal
  have hpb2 : pstep (p.set ra.toNat rb) rb = rb := by
    rw [pstep_set_ne rb (toNat_ne_of_ne ha0 hb0 (Ne.symm hab)), hbfix]
  intro k
  induction k with
  | zero =>
    intro z s hz hzn h
    rcases rootRelN_zero_inv h with ⟨he, hfix⟩
    subst he
    have hza : s ≠ ra := by
      intro he2
      subst he2
      rw [hpa2] at hfix
      exact hab hfix.symm
    rw [pstep_set_ne rb (toNat_ne_of_ne ha0 hz hza)] at hfix
    exact Or.inr ⟨RootRel.root hfix, hza⟩
  | succ k ih =>
    intro z s hz hzn h
    rcases rootRelN_succ_inv h with ⟨hne, ht⟩
    by_cases hza : z = ra
    · subst hza
      rw [hpa2] at ht
      have hs : s = rb :=
        rootRel_functional (rootRel_of_rootRelN ht) (rootRel_of_fix hpb2)
      exact Or.inl ⟨RootRel.root hafix, hs⟩
    · rw [pstep_set_ne rb (toNat_ne_of_ne ha0 hz hza)] at hne ht
      rcases hrange z hz hzn with ⟨h1, h2⟩
      rcases ih (pstep p z) s h1 h2 ht with ⟨hra, hs⟩ | ⟨hrs, hs⟩
      · exact Or.inl ⟨RootRel.step hne hra, hs⟩
      · exact Or.inr ⟨RootRel.step hne hrs, hs⟩

end UnionFind

namespace UnionFind

theorem pstep_congr_toNat {p : List Int} {z x : Int} (h : z.toNat = x.toNat) :
    pstep p z = pstep p x := by
  rw [pstep, pstep, h]

/-- Full specification of `find` on a rooted, in-range parent state: with
fuel exceeding the chain depth it returns the root, keeps the length and
the range invariant, and — despite the path-compression writes — assigns
every id the same root as before. -/
theorem find_ok {n : Nat} {p : List Int}
    (hlen : p.length = n)
    (hrange : ∀ z : Int, 0 ≤ z → z < (n : Int) →
      0 ≤ pstep p z ∧ pstep p z < (n : Int)) :
    ∀ (k fuel : Nat) (x r : Int), 0 ≤ x → x < (n : Int) →
      RootRelN p x r k → k < fuel →
      ∃ p2, find fuel p x = Except.ok (p2, r) ∧ p2.length = n ∧
        (∀ z : Int, 0 ≤ z → z < (n : Int) →
          0 ≤ pstep p2 z ∧ pstep p2 z < (n : Int)) ∧
        (∀ z s : Int, 0 ≤ z → z < (n : Int) →
          (RootRel p2 z s ↔ RootRel p z s)) := by
  intro k
  induction k with
  | zero =>
    intro fuel x r hx hxn h hkf
    rcases rootRelN_zero_inv h with ⟨he, hfix⟩
    subst he
    match fuel, hkf with
    | fuel + 1, _ =>
      refine ⟨p, ?_, hlen, hrange, fun z s _ _ => Iff.rfl⟩
      rw [find, pyGet_valid hx (by omega), hfix]
      simp
  | succ k ih =>
    intro fuel x r hx hxn h hkf
    rcases rootRelN_succ_inv h with ⟨hne, ht⟩
    match fuel, hkf with
    | fuel + 1, hkf =>
      have hkf2 : k < fuel := by omega
      rcases hrange x hx hxn with ⟨h1, h2⟩
      rcases ih fuel (pstep p x) r h1 h2 ht hkf2 with
        ⟨p1, hfind1, hlen1, hrange1, hiff1⟩
      have hrr : RootRel p x r := rootRel_of_rootRelN h
      have hr0 : 0 ≤ r ∧ r < (n : Int) := rootRel_range hrange hrr hx hxn
      have hrfix : pstep p r = r := rootRel_fix hrr
      have hrnx : r ≠ x := by
        intro he
        subst he
        exact hne hrfix
      have hp1x : RootRel p1 x r := (hiff1 x r hx hxn).mpr hrr
      have hxl1 : x.toNat < p1.length := by omega
      have hset : pySet p1 x r = some (p1.set x.toNat r) :=
        pySet_valid r hx (by omega)
      have hget2 : pyGet (p1.set x.toNat r) x = some r := by
        rw [pyGet_valid hx (by rw [List.length_set]; omega),
          pstep_set_self r hxl1]
      refine ⟨p1.set x.toNat r, ?_, ?_, ?_, ?_⟩
      · rw [find, pyGet_valid hx (by omega)]
        simp only [if_neg hne, hfind1, hset, hget2]
      · rw [List.length_set]
        exact hlen1
      · intro z hz hzn
        by_cases hzx : z.toNat = x.toNat
        · rw [pstep_congr_toNat hzx, pstep_set_self r hxl1]
          exact hr0
        · rw [pstep_set_ne r hzx]
          exact hrange1 z hz hzn
      · intro z s hz hzn
        exact (rootRel_set_compress hlen1 hrange1 hx hxn hp1x hrnx hz hzn).trans
          (hiff1 z s hz hzn)

end UnionFind

namespace UnionFind

theorem sameRoot_symm {p : List Int} {x y : Int} (h : SameRoot p x y) :
    SameRoot p y x := by
  rcases h with ⟨r, h1, h2⟩
  exact ⟨r, h2, h1⟩

theorem sameRoot_trans {p : List Int} {x y z : Int}
    (h1 : SameRoot p x y) (h2 : SameRoot p y z) : SameRoot p x z := by
  rcases h1 with ⟨r, hx, hy⟩
  rcases h2 with ⟨s, hy2, hz⟩
  rw [rootRel_functional hy hy2] at hx
  exact ⟨s, hx, hz⟩

theorem linked_mono {us vs : List (Int × Int)} {x y : Int}
    (h : Linked us x y) : Linked (us ++ vs) x y :=
  Relation.EqvGen.mono (fun _ _ hab => List.mem_append_left _ hab) h

theorem linked_pair {us : List (Int × Int)} {a b : Int}
    (h : (a, b) ∈ us) : Linked us a b :=
  Relation.EqvGen.rel _ _ h

/-- If every recorded union pair is in range and same-rooted in a state
`q`, then any two linked ids are equal or same-rooted in `q`. -/
theorem linked_to_sameRoot {n : Nat} {us : List (Int × Int)} {q : List Int}
    (hpr : ∀ pr ∈ us, (0 ≤ pr.1 ∧ pr.1 < (n : Int)) ∧
      (0 ≤ pr.2 ∧ pr.2 < (n : Int)))
    (hrel : ∀ pr ∈ us, SameRoot q pr.1 pr.2) :
    ∀ {z w : Int}, Linked us z w →
      z = w ∨ ((0 ≤ z ∧ z < (n : Int)) ∧ (0 ≤ w ∧ w < (n : Int)) ∧
        SameRoot q z w) := by
  intro z w h
  induction h with
  | rel a b hab => exact Or.inr ⟨(hpr _ hab).1, (hpr _ hab).2, hrel _ hab⟩
  | refl a => exact Or.inl rfl
  | symm a b _ ih =>
    rcases ih with rfl | ⟨h1, h2, h3⟩
    · exact Or.inl rfl
    · exact Or.inr ⟨h2, h1, sameRoot_symm h3⟩
  | trans _ _ _ _ _ ih1 ih2 =>
    rcases ih1 with rfl | ⟨h1, h2, h3⟩
    · exact ih2
    · rcases ih2 with rfl | ⟨_, h5, h6⟩
      · exact Or.inr ⟨h1, h2, h3⟩
      · exact Or.inr ⟨h1, h5, sameRoot_trans h3 h6⟩

/-- Running one `union` call on an invariant-satisfying state succeeds and
re-establishes the invariant with the new pair recorded. -/
theorem union_ok {n : Nat} {us : List (Int × Int)} {p : List Int}
    (hinv : Inv n us p)
    (hus : ∀ pr ∈ us, (0 ≤ pr.1 ∧ pr.1 < (n : Int)) ∧
      (0 ≤ pr.2 ∧ pr.2 < (n : Int)))
    {a b : Int} (ha0 : 0 ≤ a) (han : a < (n : Int))
    (hb0 : 0 ≤ b) (hbn : b < (n : Int)) :
    ∃ p3, union p a b = Except.ok p3 ∧ Inv n (us ++ [(a, b)]) p3 := by
  obtain ⟨hlen, hrange, hrooted, hsem⟩ := hinv
  rcases hrooted a ha0 han with ⟨ra, hra⟩
  rcases rootRelN_min hra with ⟨ka, hka, hkamin⟩
  have hkan : ka < n := rootRelN_depth_lt hrange ha0 han hka hkamin
  rcases find_ok hlen hrange ka (p.length + 1) a ra ha0 han hka (by omega) with
    ⟨p1, hfind1, hlen1, hrange1, hiff1⟩
  rcases hrooted b hb0 hbn with ⟨rb, hrb⟩
  have hrb1 : RootRel p1 b rb := (hiff1 b rb hb0 hbn).mpr hrb
  rcases rootRelN_min hrb1 with ⟨kb, hkb, hkbmin⟩
  have hkbn : kb < n := rootRelN_depth_lt hrange1 hb0 hbn hkb hkbmin
  rcases find_ok hlen1 hrange1 kb (p1.length + 1) b rb hb0 hbn hkb (by omega) with
    ⟨p2, hfind2, hlen2, hrange2, hiff2⟩
  have hra0 : 0 ≤ ra ∧ ra < (n : Int) := rootRel_range hrange hra ha0 han
  have hrb0 : 0 ≤ rb ∧ rb < (n : Int) := rootRel_range hrange hrb hb0 hbn
  have hp2a : RootRel p2 a ra :=
    (hiff2 a ra ha0 han).mpr ((hiff1 a ra ha0 han).mpr hra)
  have hp2b : RootRel p2 b rb := (hiff2 b rb hb0 hbn).mpr hrb1
  have hiff12 : ∀ z s : Int, 0 ≤ z → z < (n : Int) →
      (RootRel p2 z s ↔ RootRel p z s) :=
    fun z s hz hzn => (hiff2 z s hz hzn).trans (hiff1 z s hz hzn)
  have hsame12 : ∀ z w : Int, 0 ≤ z → z < (n : Int) → 0 ≤ w → w < (n : Int) →
      (SameRoot p2 z w ↔ SameRoot p z w) := by
    intro z w hz hzn hw hwn
    constructor
    · rintro ⟨r, h1, h2⟩
      exact ⟨r, (hiff12 z r hz hzn).mp h1, (hiff12 w r hw hwn).mp h2⟩
    · rintro ⟨r, h1, h2⟩
      exact ⟨r, (hiff12 z r hz hzn).mpr h1, (hiff12 w r hw hwn).mpr h2⟩
  have hrafix2 : pstep p2 ra = ra := rootRel_fix hp2a
  have hrbfix2 : pstep p2 rb = rb := rootRel_fix hp2b
  have hrooted2 : ∀ z : Int, 0 ≤ z → z < (n : Int) → ∃ r, RootRel p2 z r := by
    intro z hz hzn
    rcases hrooted z hz hzn with ⟨r, hr⟩
    exact ⟨r, (hiff12 z r hz hzn).mpr hr⟩
  by_cases hab : ra = rb
  · subst hab
    refine ⟨p2, ?_, hlen2, hrange2, hrooted2, ?_⟩
    · rw [union]
      simp [hfind1, hfind2]
    · intro z w hz hzn hw hwn
      constructor
      · intro h
        exact linked_mono ((hsem z w hz hzn hw hwn).mp
          ((hsame12 z w hz hzn hw hwn).mp h))
      · intro h
        have hpr : ∀ pr ∈ us ++ [(a, b)], (0 ≤ pr.1 ∧ pr.1 < (n : Int)) ∧
            (0 ≤ pr.2 ∧ pr.2 < (n : Int)) := by
          intro pr hpr
          rcases List.mem_append.mp hpr with hpr | hpr
          · exact hus pr hpr
          · rw [List.mem_singleton] at hpr
            subst hpr
            exact ⟨⟨ha0, han⟩, hb0, hbn⟩
        have hrel : ∀ pr ∈ us ++ [(a, b)], SameRoot p2 pr.1 pr.2 := by
          intro pr hmem
          rcases List.mem_append.mp hmem with hmem | hmem
          · rcases hus pr hmem with ⟨⟨q1, q2⟩, q3, q4⟩
            exact (hsame12 pr.1 pr.2 q1 q2 q3 q4).mpr
              ((hsem pr.1 pr.2 q1 q2 q3 q4).mpr (linked_pair hmem))
          · rw [List.mem_singleton] at hmem
            subst hmem
            exact ⟨ra, hp2a, hp2b⟩
        rcases linked_to_sameRoot hpr hrel h with rfl | ⟨_, _, hsr⟩
        · rcases hrooted2 z hz hzn with ⟨r, hr⟩
          exact ⟨r, hr, hr⟩
        · exact hsr
  · have hal2 : ra.toNat < p2.length := by omega
    have hsetp : pySet p2 ra rb = some (p2.set ra.toNat rb) :=
      pySet_valid rb hra0.1 (by omega)
    have hredir : ∀ z : Int, 0 ≤ z → z < (n : Int) → RootRel p2 z ra →
        RootRel (p2.set ra.toNat rb) z rb := by
      intro z hz hzn hzr
      rcases rootRelN_of_rootRel hzr with ⟨k, hk⟩
      exact rootRel_link_redirect hrange2 hra0.1 hrb0.1 hrafix2 hrbfix2 hab
        hal2 k z hz hzn hk
    have hkeep : ∀ z s : Int, 0 ≤ z → z < (n : Int) → s ≠ ra →
        RootRel p2 z s → RootRel (p2.set ra.toNat rb) z s := by
      intro z s hz hzn hs hzs
      rcases rootRelN_of_rootRel hzs with ⟨k, hk⟩
      exact rootRel_link_keep hrange2 hra0.1 hrafix2 k z s hz hzn hs hk
    have hfwd : ∀ z s : Int, 0 ≤ z → z < (n : Int) →
        RootRel (p2.set ra.toNat rb) z s →
        (RootRel p2 z ra ∧ s = rb) ∨ (RootRel p2 z s ∧ s ≠ ra) := by
      intro z s hz hzn hzs
      rcases rootRelN_of_rootRel hzs with ⟨k, hk⟩
      exact rootRel_link_fwd hrange2 hra0.1 hrb0.1 hrafix2 hrbfix2 hab hal2
        k z s hz hzn hk
    have hto3 : ∀ z w : Int, 0 ≤ z → z < (n : Int) → 0 ≤ w → w < (n : Int) →
        SameRoot p2 z w → SameRoot (p2.set ra.toNat rb) z w := by
      intro z w hz hzn hw hwn hsr
      rcases hsr with ⟨s, h1, h2⟩
      by_cases hsra : s = ra
      · subst hsra
        exact ⟨rb, hredir z hz hzn h1, hredir w hw hwn h2⟩
      · exact ⟨s, hkeep z s hz hzn hsra h1, hkeep w s hw hwn hsra h2⟩
    refine ⟨p2.set ra.toNat rb, ?_, ?_, ?_, ?_, ?_⟩
    · rw [union]
      simp only [hfind1, hfind2, ne_eq, hab, not_false_eq_true, if_pos, hsetp]
    · rw [List.length_set]
      exact hlen2
    · intro z hz hzn
      by_cases hzr : z.toNat = ra.toNat
      · rw [pstep_congr_toNat hzr, pstep_set_self rb hal2]
        exact hrb0
      · rw [pstep_set_ne rb hzr]
        exact hrange2 z hz hzn
    · intro z hz hzn
      rcases hrooted2 z hz hzn with ⟨r, hr⟩
      by_cases hrra : r = ra
      · subst hrra
        exact ⟨rb, hredir z hz hzn hr⟩
      · exact ⟨r, hkeep z r hz hzn hrra hr⟩
    · intro z w hz hzn hw hwn
      constructor
      · rintro ⟨s, h1, h2⟩
        rcases hfwd z s hz hzn h1 with ⟨hz1, hs1⟩ | ⟨hz1, hs1⟩ <;>
          rcases hfwd w s hw hwn h2 with ⟨hw1, hs2⟩ | ⟨hw1, hs2⟩
        · have hza : Linked us z a := (hsem z a hz hzn ha0 han).mp
            ((hsame12 z a hz hzn ha0 han).mp ⟨ra, hz1, hp2a⟩)
          have hwa : Linked us w a := (hsem w a hw hwn ha0 han).mp
            ((hsame12 w a hw hwn ha0 han).mp ⟨ra, hw1, hp2a⟩)
          exact Relation.EqvGen.trans _ _ _ (linked_mono hza)
            (Relation.EqvGen.symm _ _ (linked_mono hwa))
        · rw [hs1] at hw1
          have hza : Linked us z a := (hsem z a hz hzn ha0 han).mp
            ((hsame12 z a hz hzn ha0 han).mp ⟨ra, hz1, hp2a⟩)
          have hwb : Linked us w b := (hsem w b hw hwn hb0 hbn).mp
            ((hsame12 w b hw hwn hb0 hbn).mp ⟨rb, hw1, hp2b⟩)
          refine Relation.EqvGen.trans _ _ _ (linked_mono hza) ?_
          refine Relation.EqvGen.trans _ _ _
            (linked_pair (List.mem_append_right _ (List.mem_singleton_self _))) ?_
          exact Relation.EqvGen.symm _ _ (linked_mono hwb)
        · rw [hs2] at hz1
          have hzb : Linked us z b := (hsem z b hz hzn hb0 hbn).mp
            ((hsame12 z b hz hzn hb0 hbn).mp ⟨rb, hz1, hp2b⟩)
          have hwa : Linked us w a := (hsem w a hw hwn ha0 han).mp
            ((hsame12 w a hw hwn ha0 han).mp ⟨ra, hw1, hp2a⟩)
          refine Relation.EqvGen.trans _ _ _ (linked_mono hzb) ?_
          refine Relation.EqvGen.trans _ _ _ (Relation.EqvGen.symm _ _
            (linked_pair (List.mem_append_right _ (List.mem_singleton_self _)))) ?_
          exact Relation.EqvGen.symm _ _ (linked_mono hwa)
        · exact linked_mono ((hsem z w hz hzn hw hwn).mp
            ((hsame12 z w hz hzn hw hwn).mp ⟨s, hz1, hw1⟩))
      · intro h
        have hpr : ∀ pr ∈ us ++ [(a, b)], (0 ≤ pr.1 ∧ pr.1 < (n : Int)) ∧
            (0 ≤ pr.2 ∧ pr.2 < (n : Int)) := by
          intro pr hpr
          rcases List.mem_append.mp hpr with hpr | hpr
          · exact hus pr hpr
          · rw [List.mem_singleton] at hpr
            subst hpr
            exact ⟨⟨ha0, han⟩, hb0, hbn⟩
        have hrel : ∀ pr ∈ us ++ [(a, b)], SameRoot (p2.set ra.toNat rb) pr.1 pr.2 := by
          intro pr hmem
          rcases List.mem_append.mp hmem with hmem | hmem
          · rcases hus pr hmem with ⟨⟨q1, q2⟩, q3, q4⟩
            exact hto3 pr.1 pr.2 q1 q2 q3 q4 ((hsame12 pr.1 pr.2 q1 q2 q3 q4).mpr
              ((hsem pr.1 pr.2 q1 q2 q3 q4).mpr (linked_pair hmem)))
          · rw [List.mem_singleton] at hmem
            subst hmem
            exact ⟨rb, hredir a ha0 han hp2a, hkeep b rb hb0 hbn (Ne.symm hab) hp2b⟩
        rcases linked_to_sameRoot hpr hrel h with rfl | ⟨_, _, hsr⟩
        · rcases hrooted2 z hz hzn with ⟨r, hr⟩
          by_cases hrra : r = ra
          · subst hrra
            exact ⟨rb, hredir z hz hzn hr, hredir z hz hzn hr⟩
          · exact ⟨r, hkeep z r hz hzn hrra hr, hkeep z r hz hzn hrra hr⟩
        · exact hsr

end UnionFind

namespace UnionFind

theorem pstep_init {n : Nat} {z : Int} (h0 : 0 ≤ z) (hn : z < (n : Int)) :
    pstep (init n) z = z := by
  rw [pstep, init_getD (show z.toNat < n by omega), Int.toNat_of_nonneg h0]

theorem rootRel_init {n : Nat} {z r : Int} (h0 : 0 ≤ z) (hn : z < (n : Int))
    (h : RootRel (init n) z r) : r = z := by
  cases h with
  | root _ => rfl
  | step hne _ => exact absurd (pstep_init h0 hn) hne

theorem linked_nil {x y : Int} (h : Linked [] x y) : x = y := by
  induction h with
  | rel a b hab => exact absurd hab (List.not_mem_nil _)
  | refl a => rfl
  | symm _ _ _ ih => exact ih.symm
  | trans _ _ _ _ _ ih1 ih2 => exact ih1.trans ih2

theorem inv_init (n : Nat) : Inv n [] (init n) := by
  refine ⟨init_length n, ?_, ?_, ?_⟩
  · intro z h0 hn
    rw [pstep_init h0 hn]
    exact ⟨h0, hn⟩
  · intro z h0 hn
    exact ⟨z, RootRel.root (pstep_init h0 hn)⟩
  · intro z w hz hzn hw hwn
    constructor
    · rintro ⟨r, h1, h2⟩
      have he : z = w := (rootRel_init hz hzn h1).symm.trans (rootRel_init hw hwn h2)
      rw [he]
      exact Relation.EqvGen.refl _
    · intro h
      have he := linked_nil h
      subst he
      exact ⟨z, RootRel.root (pstep_init hz hzn), RootRel.root (pstep_init hz hzn)⟩

theorem foldl_unions_ok {n : Nat} :
    ∀ (rem done : List (Int × Int)) (p : List Int),
      Inv n done p →
      (∀ pr ∈ done, (0 ≤ pr.1 ∧ pr.1 < (n : Int)) ∧
        (0 ≤ pr.2 ∧ pr.2 < (n : Int))) →
      (∀ pr ∈ rem, (0 ≤ pr.1 ∧ pr.1 < (n : Int)) ∧
        (0 ≤ pr.2 ∧ pr.2 < (n : Int))) →
      ∃ p2, List.foldlM (fun q xy => union q xy.1 xy.2) p rem = Except.ok p2 ∧
        Inv n (done ++ rem) p2 := by
  intro rem
  induction rem with
  | nil =>
    intro done p hinv _ _
    exact ⟨p, rfl, by rw [List.append_nil]; exact hinv⟩
  | cons u rem ih =>
    intro done p hinv hdone hrem
    have hu := hrem u (List.mem_cons_self u rem)
    rcases union_ok hinv hdone hu.1.1 hu.1.2 hu.2.1 hu.2.2 with ⟨p1, hstep, hinv1⟩
    have hdone1 : ∀ pr ∈ done ++ [u], (0 ≤ pr.1 ∧ pr.1 < (n : Int)) ∧
        (0 ≤ pr.2 ∧ pr.2 < (n : Int)) := by
      intro pr hpr
      rcases List.mem_append.mp hpr with hpr | hpr
      · exact hdone pr hpr
      · rw [List.mem_singleton] at hpr
        subst hpr
        exact hu
    have hrem1 : ∀ pr ∈ rem, (0 ≤ pr.1 ∧ pr.1 < (n : Int)) ∧
        (0 ≤ pr.2 ∧ pr.2 < (n : Int)) :=
      fun pr h => hrem pr (List.mem_cons_of_mem u h)
    rcases ih (done ++ [u]) p1 hinv1 hdone1 hrem1 with ⟨p2, hrun, hinv2⟩
    refine ⟨p2, ?_, ?_⟩
    · rw [List.foldlM_cons, hstep]
      exact hrun
    · rw [← List.append_cons] at hinv2
      exact hinv2

end UnionFind

/-- Claim C7: over a fresh `UnionFind(n)`, after any finite sequence of
`union` calls on ids in `[0, n)`, and for any `x`, `y` in `[0, n)`, the two
`find` calls of `uf.find(x) == uf.find(y)` (the second running on the state
left by the first) both succeed, and the returned roots are equal exactly
when `x` and `y` were connected, directly or transitively, by the prior
union pairs. -/
theorem claim_C7 (n : Nat) (us : List (Int × Int))
    (hus : ∀ pr ∈ us, (0 ≤ pr.1 ∧ pr.1 < (n : Int)) ∧
      (0 ≤ pr.2 ∧ pr.2 < (n : Int)))
    (x y : Int) (hx0 : 0 ≤ x) (hxn : x < (n : Int))
    (hy0 : 0 ≤ y) (hyn : y < (n : Int)) :
    ∃ p p1 p2 rx ry,
      UnionFind.runUnions n us = Except.ok p ∧
      UnionFind.find (p.length + 1) p x = Except.ok (p1, rx) ∧
      UnionFind.find (p1.length + 1) p1 y = Except.ok (p2, ry) ∧
      (rx = ry ↔ UnionFind.Linked us x y) := by
  rcases UnionFind.foldl_unions_ok us [] (UnionFind.init n) (UnionFind.inv_init n)
    (by intro pr hpr; exact absurd hpr (List.not_mem_nil pr)) hus with ⟨p, hrun, hinv⟩
  obtain ⟨hlen, hrange, hrooted, hsem⟩ := hinv
  simp only [List.nil_append] at hsem
  rcases hrooted x hx0 hxn with ⟨rx, hrx⟩
  rcases UnionFind.rootRelN_min hrx with ⟨kx, hkx, hkxmin⟩
  have hkxn := UnionFind.rootRelN_depth_lt hrange hx0 hxn hkx hkxmin
  rcases UnionFind.find_ok hlen hrange kx (p.length + 1) x rx hx0 hxn hkx
    (by omega) with ⟨p1, hfind1, hlen1, hrange1, hiff1⟩
  rcases hrooted y hy0 hyn with ⟨ry, hry⟩
  have hry1 : UnionFind.RootRel p1 y ry := (hiff1 y ry hy0 hyn).mpr hry
  rcases UnionFind.rootRelN_min hry1 with ⟨ky, hky, hkymin⟩
  have hkyn := UnionFind.rootRelN_depth_lt hrange1 hy0 hyn hky hkymin
  rcases UnionFind.find_ok hlen1 hrange1 ky (p1.length + 1) y ry hy0 hyn hky
    (by omega) with ⟨p2, hfind2, _, _, _⟩
  refine ⟨p, p1, p2, rx, ry, hrun, hfind1, hfind2, ?_⟩
  rw [← hsem x y hx0 hxn hy0 hyn]
  constructor
  · intro he
    refine ⟨rx, hrx, ?_⟩
    rw [he]
    exact hry
  · rintro ⟨r, h1, h2⟩
    rw [UnionFind.rootRel_functional hrx h1, UnionFind.rootRel_functional hry h2]

/-- Witness for C7 at a concrete input: on `UnionFind(6)` after
`union(1,2)` and `union(3,4)`, the roots of 1 and 2 agree exactly because 1
and 2 are linked. -/
theorem claim_C7_witness :
    ∃ p p1 p2 rx ry,
      UnionFind.runUnions 6 [(1, 2), (3, 4)] = Except.ok p ∧
      UnionFind.find (p.length + 1) p 1 = Except.ok (p1, rx) ∧
      UnionFind.find (p1.length + 1) p1 2 = Except.ok (p2, ry) ∧
      (rx = ry ↔ UnionFind.Linked [(1, 2), (3, 4)] 1 2) :=
  claim_C7 6 [(1, 2), (3, 4)] (by decide) 1 2 (by decide) (by decide)
    (by decide) (by decide)

namespace BFS

theorem reaches_zero {g : List (List Int)} {s v : Int}
    (h : Reaches g s v 0) : v = s := by
  cases h
  rfl

theorem hasDist_of_reaches {g : List (List Int)} {s w : Int} {k : Nat}
    (h : Reaches g s w k) : ∃ d, IsLeastDist g s w d := by
  classical
  haveI : DecidablePred fun j => Reaches g s w j := Classical.decPred _
  exact ⟨Nat.find ⟨k, h⟩, Nat.find_spec ⟨k, h⟩,
    fun j hj => Nat.find_min' ⟨k, h⟩ hj⟩

theorem isLeastDist_unique {g : List (List Int)} {s v : Int} {d d' : Nat}
    (h1 : IsLeastDist g s v d) (h2 : IsLeastDist g s v d') : d = d' :=
  Nat.le_antisymm (h1.2 d' h2.1) (h2.2 d h1.1)

theorem pyIndex_valid {g : List (List Int)} {u : Int} (h0 : 0 ≤ u)
    (hn : u < (g.length : Int)) : pyIndex g u = some (g.getD u.toNat []) := by
  rw [pyIndex, if_pos ⟨h0, hn⟩]

theorem wf_neighbor_range {g : List (List Int)} (hwf : WF g) {u v : Int}
    (h0 : 0 ≤ u) (hn : u < (g.length : Int)) (hv : v ∈ g.getD u.toNat []) :
    0 ≤ v ∧ v < (g.length : Int) := by
  have hlt : u.toNat < g.length := by omega
  have hmem : g.getD u.toNat [] ∈ g := by
    rw [List.getD_eq_getElem?_getD, List.getElem?_eq_getElem hlt]
    exact List.getElem_mem hlt
  exact hwf _ hmem v hv

/-- Any unvisited node at hop distance `k` forces a queued node at a
strictly smaller least distance. -/
theorem unvisited_far {g : List (List Int)} {s : Int} {V Q O : List Int}
    (hVset : ∀ v : Int, v ∈ V ↔ (v ∈ O ∨ v ∈ Q))
    (hReach : ∀ v ∈ V, ∃ d, IsLeastDist g s v d)
    (hClosed : ∀ u ∈ O, ∀ v ∈ g.getD u.toNat [], v ∈ V)
    (hs : s ∈ V) :
    ∀ {k : Nat} {w : Int}, Reaches g s w k → w ∉ V →
      ∃ y ∈ Q, ∃ dy, IsLeastDist g s y dy ∧ dy < k := by
  intro k w h
  induction h with
  | refl => intro hw; exact absurd hs hw
  | step hu h0 hn hmem ih =>
    rename_i u v k'
    intro hw
    by_cases huV : u ∈ V
    · rcases (hVset u).mp huV with hO | hQ
      · exact absurd (hClosed u hO _ hmem) hw
      · rcases hReach u huV with ⟨du, hdu⟩
        exact ⟨u, hQ, du, hdu, Nat.lt_succ_of_le (hdu.2 k' hu)⟩
    · rcases ih huV with ⟨y, hy, dy, hdy, hlt⟩
      exact ⟨y, hy, dy, hdy, Nat.lt_succ_of_lt hlt⟩

/-- Specification of the neighbor-enqueueing fold: it appends the fresh
neighbors to the queue, adds exactly those to the visited set, and leaves
every neighbor visited afterwards. -/
theorem enqueue_spec : ∀ (nbrs V Q : List Int),
    ∃ news : List Int,
      (enqueue V Q nbrs).2 = Q ++ news ∧
      (∀ w ∈ news, w ∈ nbrs ∧ w ∉ V) ∧
      (∀ v : Int, v ∈ (enqueue V Q nbrs).1 ↔ (v ∈ V ∨ v ∈ news)) ∧
      (∀ w ∈ nbrs, w ∈ (enqueue V Q nbrs).1) := by
  intro nbrs
  induction nbrs with
  | nil =>
    intro V Q
    refine ⟨[], by simp [enqueue], by simp, by simp [enqueue], by simp⟩
  | cons nb nbrs ih =>
    intro V Q
    by_cases hnb : nb ∈ V
    · have hstep : enqueue V Q (nb :: nbrs) = enqueue V Q nbrs := by
        rw [enqueue, enqueue, List.foldl_cons]
        simp [hnb]
      rcases ih V Q with ⟨news, h1, h2, h3, h4⟩
      refine ⟨news, by rw [hstep]; exact h1, ?_, by rw [hstep]; exact h3, ?_⟩
      · intro w hw
        exact ⟨List.mem_cons_of_mem nb (h2 w hw).1, (h2 w hw).2⟩
      · intro w hw
        rw [hstep]
        rcases List.mem_cons.mp hw with rfl | hw
        · exact (h3 w).mpr (Or.inl hnb)
        · exact h4 w hw
    · have hstep : enqueue V Q (nb :: nbrs) =
          enqueue (nb :: V) (Q ++ [nb]) nbrs := by
        rw [enqueue, enqueue, List.foldl_cons]
        simp [hnb]
      rcases ih (nb :: V) (Q ++ [nb]) with ⟨news, h1, h2, h3, h4⟩
      refine ⟨nb :: news, ?_, ?_, ?_, ?_⟩
      · rw [hstep, h1, List.append_assoc, List.singleton_append]
      · intro w hw
        rcases List.mem_cons.mp hw with rfl | hw
        · exact ⟨List.mem_cons_self w nbrs, hnb⟩
        · refine ⟨List.mem_cons_of_mem nb (h2 w hw).1, ?_⟩
          intro hwV
          exact (h2 w hw).2 (List.mem_cons_of_mem nb hwV)
      · intro v
        rw [hstep, h3 v, List.mem_cons, List.mem_cons]
        tauto
      · intro w hw
        rw [hstep]
        rcases List.mem_cons.mp hw with rfl | hw
        · exact (h3 w).mpr (Or.inl (List.mem_cons_self w V))
        · exact h4 w hw

end BFS

namespace BFS

theorem pairwise_of_forall_mem {r : Int → Int → Prop} :
    ∀ (l : List Int), (∀ a ∈ l, ∀ b ∈ l, r a b) → l.Pairwise r
  | [], _ => List.Pairwise.nil
  | a :: l, h =>
    List.Pairwise.cons
      (fun b hb => h a (List.mem_cons_self a l) b (List.mem_cons_of_mem a hb))
      (pairwise_of_forall_mem l
        (fun b hb c hc => h b (List.mem_cons_of_mem a hb) c (List.mem_cons_of_mem a hc)))

/-- Popping the queue head and enqueueing its fresh neighbors preserves the
BFS invariant: the popped node joins the emitted prefix, and each fresh
neighbor joins the queue at exactly the next BFS level. -/
theorem bfs_inv_step {g : List (List Int)} {s : Int} {V R O : List Int}
    {u : Int} (hwf : WF g) (hinv : BfsInv g s V (u :: R) O) :
    BfsInv g s (enqueue V R (g.getD u.toNat [])).1
      (enqueue V R (g.getD u.toNat [])).2 (O ++ [u]) := by
  obtain ⟨hVset, hVrange, hReach, hSort, hWin, hClosed, hs⟩ := hinv
  have huV : u ∈ V := (hVset u).mpr (Or.inr (List.mem_cons_self u R))
  rcases hVrange u huV with ⟨hu0, hun⟩
  rcases hReach u huV with ⟨du, hdu⟩
  rcases enqueue_spec (g.getD u.toNat []) V R with ⟨news, hQ2, hnews, hV2, hcov⟩
  have hSort2 := hSort
  rw [List.pairwise_append] at hSort2
  obtain ⟨hPO, hPuR, hCross⟩ := hSort2
  rw [List.pairwise_cons] at hPuR
  obtain ⟨huR, hPR⟩ := hPuR
  have hfresh : ∀ w ∈ news, IsLeastDist g s w (du + 1) := by
    intro w hw
    rcases hnews w hw with ⟨hwnb, hwV⟩
    have hreach : Reaches g s w (du + 1) := Reaches.step hdu.1 hu0 hun hwnb
    rcases hasDist_of_reaches hreach with ⟨dw, hdw⟩
    have hle : dw ≤ du + 1 := hdw.2 _ hreach
    have hge : du + 1 ≤ dw := by
      rcases unvisited_far hVset hReach hClosed hs hdw.1 hwV with
        ⟨y, hy, dy, hdy, hlt⟩
      rcases List.mem_cons.mp hy with rfl | hyR
      · have he : dy = du := isLeastDist_unique hdy hdu
        omega
      · have he : du ≤ dy := huR y hyR du dy hdu hdy
        omega
    have he : dw = du + 1 := by omega
    rw [← he]
    exact hdw
  refine ⟨?_, ?_, ?_, ?_, ?_, ?_, ?_⟩
  · intro v
    rw [hV2 v, hQ2, hVset v, List.mem_append, List.mem_append,
      List.mem_singleton, List.mem_cons]
    tauto
  · intro v hv
    rcases (hV2 v).mp hv with hvV | hvn
    · exact hVrange v hvV
    · exact wf_neighbor_range hwf hu0 hun (hnews v hvn).1
  · intro v hv
    rcases (hV2 v).mp hv with hvV | hvn
    · exact hReach v hvV
    · exact ⟨du + 1, hfresh v hvn⟩
  · rw [hQ2]
    have heq : (O ++ [u]) ++ (R ++ news) = (O ++ u :: R) ++ news := by
      simp [List.append_assoc]
    rw [heq, List.pairwise_append]
    refine ⟨hSort, ?_, ?_⟩
    · refine pairwise_of_forall_mem news ?_
      intro a ha b hb du' dv' ha' hb'
      have h1 := isLeastDist_unique ha' (hfresh a ha)
      have h2 := isLeastDist_unique hb' (hfresh b hb)
      omega
    · intro x hx w hw dx dw hx' hw'
      have h2 := isLeastDist_unique hw' (hfresh w hw)
      rcases List.mem_append.mp hx with hxO | hxuR
      · have h3 := hCross x hxO u (List.mem_cons_self u R) dx du hx' hdu
        omega
      · rcases List.mem_cons.mp hxuR with rfl | hxR
        · have h3 := isLeastDist_unique hx' hdu
          omega
        · have h3 := hWin x (List.mem_cons_of_mem u hxR) u
            (List.mem_cons_self u R) dx du hx' hdu
          omega
  · rw [hQ2]
    intro x hx y hy dx dy hx' hy'
    rcases List.mem_append.mp hx with hxR | hxn
    · rcases List.mem_append.mp hy with hyR | hyn
      · exact hWin x (List.mem_cons_of_mem u hxR) y
          (List.mem_cons_of_mem u hyR) dx dy hx' hy'
      · have h2 := isLeastDist_unique hy' (hfresh y hyn)
        have h3 := hWin x (List.mem_cons_of_mem u hxR) u
          (List.mem_cons_self u R) dx du hx' hdu
        omega
    · have h1 := isLeastDist_unique hx' (hfresh x hxn)
      rcases List.mem_append.mp hy with hyR | hyn
      · have h3 := huR y hyR du dy hdu hy'
        omega
      · have h2 := isLeastDist_unique hy' (hfresh y hyn)
        omega
  · intro x hx v hv
    rcases List.mem_append.mp hx with hxO | hxu
    · exact (hV2 v).mpr (Or.inl (hClosed x hxO v hv))
    · rw [List.mem_singleton] at hxu
      subst hxu
      exact hcov v hv
  · exact (hV2 s).mpr (Or.inl hs)

/-- If the BFS loop returns an output from an invariant state, the emitted
sequence has non-decreasing least hop distances. -/
theorem bfs_loop_pairwise {g : List (List Int)} {s : Int} (hwf : WF g) :
    ∀ (fuel : Nat) (V Q O res : List Int),
      BfsInv g s V Q O →
      bfs_loop g fuel V Q O = Except.ok res →
      List.Pairwise (DistLE g s) res := by
  intro fuel
  induction fuel with
  | zero =>
    intro V Q O res _ hrun
    rw [bfs_loop] at hrun
    exact Except.noConfusion hrun
  | succ fuel ih =>
    intro V Q O res hinv hrun
    cases Q with
    | nil =>
      rw [bfs_loop] at hrun
      injection hrun with h
      subst h
      have hSort := hinv.2.2.2.1
      simpa using hSort
    | cons u R =>
      have huV : u ∈ V := (hinv.1 u).mpr (Or.inr (List.mem_cons_self u R))
      rcases hinv.2.1 u huV with ⟨hu0, hun⟩
      simp only [bfs_loop, pyIndex_valid hu0 hun] at hrun
      exact ih _ _ _ res (bfs_inv_step hwf hinv) hrun

end BFS

/-- Counterexample to claim C5 as stated (strict "closer"): BFS on the
6-node chain graph from the valid start 2 emits `[2, 1, 3, 0, 4, 5]`;
node 1 is emitted strictly before node 3, yet both have hop count 1 from
the start, so an emitted node need not be strictly closer than every
later-emitted node.  The graph is connected from the start. -/
theorem claim_C5_counterexample :
    BFS.bfs_traversal (BFS.create_graph 6) 2 = Except.ok [2, 1, 3, 0, 4, 5] ∧
    BFS.ConnectedFrom (BFS.create_graph 6) 2 ∧
    BFS.IsLeastDist (BFS.create_graph 6) 2 1 1 ∧
    BFS.IsLeastDist (BFS.create_graph 6) 2 3 1 ∧
    ¬ (1 < 1) := by
  have r2 : BFS.Reaches (BFS.create_graph 6) 2 2 0 := BFS.Reaches.refl
  have r1 : BFS.Reaches (BFS.create_graph 6) 2 1 1 :=
    BFS.Reaches.step r2 (by decide) (by decide) (by decide)
  have r3 : BFS.Reaches (BFS.create_graph 6) 2 3 1 :=
    BFS.Reaches.step r2 (by decide) (by decide) (by decide)
  have r0 : BFS.Reaches (BFS.create_graph 6) 2 0 2 :=
    BFS.Reaches.step r1 (by decide) (by decide) (by decide)
  have r4 : BFS.Reaches (BFS.create_graph 6) 2 4 2 :=
    BFS.Reaches.step r3 (by decide) (by decide) (by decide)
  have r5 : BFS.Reaches (BFS.create_graph 6) 2 5 3 :=
    BFS.Reaches.step r4 (by decide) (by decide) (by decide)
  refine ⟨by rfl, ?_, ⟨r1, ?_⟩, ⟨r3, ?_⟩, by omega⟩
  · intro v h0 hn
    have hlen : ((BFS.create_graph 6).length : Int) = 6 := by decide
    rw [hlen] at hn
    interval_cases v
    exacts [⟨2, r0⟩, ⟨1, r1⟩, ⟨0, r2⟩, ⟨1, r3⟩, ⟨2, r4⟩, ⟨3, r5⟩]
  · intro k hk
    cases k with
    | zero =>
      have he : (1 : Int) = 2 := BFS.reaches_zero hk
      omega
    | succ k => omega
  · intro k hk
    cases k with
    | zero =>
      have he : (3 : Int) = 2 := BFS.reaches_zero hk
      omega
    | succ k => omega

/-- Claim C5 as amended (non-strict level-monotonicity): for every
well-formed graph connected from a valid start node, whenever
`bfs_traversal` returns an output sequence, a node emitted earlier is at
least as close to the start in hop count as every node emitted strictly
after it: `di ≤ dj` for emission positions `i < j` and least hop
distances `di`, `dj`.  The strict version of the claim fails for two
nodes on the same BFS level (see the counterexample). -/
theorem claim_C5 (g : List (List Int)) (s : Int) (out : List Int)
    (i j di dj : Nat)
    (hwf : BFS.WF g) (hs0 : 0 ≤ s) (hsn : s < (g.length : Int))
    (_hconn : BFS.ConnectedFrom g s)
    (hrun : BFS.bfs_traversal g s = Except.ok out)
    (hij : i < j) (hj : j < out.length)
    (hdi : BFS.IsLeastDist g s (out.getD i 0) di)
    (hdj : BFS.IsLeastDist g s (out.getD j 0) dj) :
    di ≤ dj := by
  have hinv0 : BFS.BfsInv g s [s] [s] [] := by
    refine ⟨?_, ?_, ?_, ?_, ?_, ?_, ?_⟩
    · intro v
      simp
    · intro v hv
      rw [List.mem_singleton] at hv
      subst hv
      exact ⟨hs0, hsn⟩
    · intro v hv
      rw [List.mem_singleton] at hv
      subst hv
      exact BFS.hasDist_of_reaches BFS.Reaches.refl
    · exact List.pairwise_singleton (BFS.DistLE g s) s
    · intro u hu v hv
      rw [List.mem_singleton] at hu hv
      subst hu
      subst hv
      intro du dv h1 h2
      have he := BFS.isLeastDist_unique h1 h2
      omega
    · intro x hx
      exact absurd hx (List.not_mem_nil x)
    · exact List.mem_singleton_self s
  rw [BFS.bfs_traversal] at hrun
  have hpw := BFS.bfs_loop_pairwise hwf (2 * g.length + 2) [s] [s] [] out
    hinv0 hrun
  rw [List.pairwise_iff_get] at hpw
  have hi' : i < out.length := lt_trans hij hj
  have hD := hpw ⟨i, hi'⟩ ⟨j, hj⟩ hij
  have hgi : out.getD i 0 = out.get ⟨i, hi'⟩ := by
    rw [List.getD_eq_getElem?_getD, List.getElem?_eq_getElem hi']
    rfl
  have hgj : out.getD j 0 = out.get ⟨j, hj⟩ := by
    rw [List.getD_eq_getElem?_getD, List.getElem?_eq_getElem hj]
    rfl
  rw [hgi] at hdi
  rw [hgj] at hdj
  exact hD di dj hdi hdj

/-- Witness for the amended C5 at a concrete input: BFS on the 3-node
chain from node 0 emits `[0, 1, 2]`, and the least hop distances at
emission positions 0 and 1 (namely 0 and 1) satisfy the non-strict
ordering. -/
theorem claim_C5_witness :
    BFS.WF (BFS.create_graph 3) ∧
    BFS.bfs_traversal (BFS.create_graph 3) 0 = Except.ok [0, 1, 2] ∧
    (0 : Nat) ≤ 1 := by
  have hwf : BFS.WF (BFS.create_graph 3) := by
    unfold BFS.WF
    decide
  have q0 : BFS.Reaches (BFS.create_graph 3) 0 0 0 := BFS.Reaches.refl
  have q1 : BFS.Reaches (BFS.create_graph 3) 0 1 1 :=
    BFS.Reaches.step q0 (by decide) (by decide) (by decide)
  have q2 : BFS.Reaches (BFS.create_graph 3) 0 2 2 :=
    BFS.Reaches.step q1 (by decide) (by decide) (by decide)
  have hd0 : BFS.IsLeastDist (BFS.create_graph 3) 0 ([0, 1, 2].getD 0 0) 0 :=
    ⟨q0, fun k _ => Nat.zero_le k⟩
  have hd1 : BFS.IsLeastDist (BFS.create_graph 3) 0 ([0, 1, 2].getD 1 0) 1 := by
    refine ⟨q1, ?_⟩
    intro k hk
    cases k with
    | zero =>
      have he : (1 : Int) = 0 := BFS.reaches_zero hk
      omega
    | succ k => omega
  have hconn : BFS.ConnectedFrom (BFS.create_graph 3) 0 := by
    intro v h0 hn
    have hlen : ((BFS.create_graph 3).length : Int) = 3 := by decide
    rw [hlen] at hn
    interval_cases v
    exacts [⟨0, q0⟩, ⟨1, q1⟩, ⟨2, q2⟩]
  exact ⟨hwf, by rfl,
    claim_C5 (BFS.create_graph 3) 0 [0, 1, 2] 0 1 0 1 hwf (by decide)
      (by decide) hconn (by rfl) (by decide) (by decide) hd0 hd1⟩
